import Mathlib

/-!
Verification of the Metamath proof verifier / expander / refactorer
(`theorem_expansion.py`, `theorem_refactor.py`, `theorem_verification.py`).

The Python code is shallowly embedded: token sequences are `List String`,
the mutable `ProofNode` tree is an inductive type, the label table and the
frame stack are explicit values threaded through the functions, and every
fallible operation returns `Except`/`Option` (a `crash` constructor stands
for a raw Python exception such as `IndexError`/`KeyError`, distinct from a
raised `MMError`).
-/

namespace MMV

/-- Statement kind tag: `$f`, `$e`, `$a`, `$p` in the Python source. -/
inductive Kind where
  | f | e | a | p
deriving DecidableEq, Repr

/-- The tuple `(dvs, f_hyps, e_hyps, stat)` returned by
`FrameStack.make_assertion` and stored in the label table for `$a`/`$p`.
`f_hyps` entries are `(typecode, variable)` pairs. -/
structure Assertion where
  dvs : List (String × String)
  f_hyps : List (String × String)
  e_hyps : List (List String)
  stat : List String
deriving DecidableEq, Repr

/-- The data half of a label-table entry: for `$f`/`$e` the hypothesis
expression, for `$a`/`$p` the assertion tuple. -/
inductive LabelData where
  | hyp (e : List String)
  | assertion (a : Assertion)
deriving DecidableEq, Repr

/-- One derivation-tree node (`class ProofNode`).  Fields mirror the Python
attributes `label`, `type`, `expr`, `mand_vars`, `hps`, `subst`, `name`
(`data` is recoverable from the label table and never read separately by the
functions modelled here). -/
inductive ProofNode where
  | mk (label : String) (typ : Kind) (expr : List String)
      (mand_vars : List ProofNode) (hps : List ProofNode)
      (subst : Bool) (name : String)

namespace ProofNode

def label : ProofNode → String
  | .mk l _ _ _ _ _ _ => l

def typ : ProofNode → Kind
  | .mk _ t _ _ _ _ _ => t

def expr : ProofNode → List String
  | .mk _ _ e _ _ _ _ => e

def mand_vars : ProofNode → List ProofNode
  | .mk _ _ _ mvs _ _ _ => mvs

def hps : ProofNode → List ProofNode
  | .mk _ _ _ _ hs _ _ => hs

def subst : ProofNode → Bool
  | .mk _ _ _ _ _ s _ => s

def name : ProofNode → String
  | .mk _ _ _ _ _ _ n => n

/-- `set_name` (the only field update performed after a node is built by the
verifier loop). -/
def setName (nm : String) : ProofNode → ProofNode
  | .mk l t e mvs hs s _ => .mk l t e mvs hs s nm

/-- The children of a node in traversal order: mandatory-variable children
first, then hypothesis children. -/
def children (n : ProofNode) : List ProofNode :=
  n.mand_vars ++ n.hps

end ProofNode

mutual

/-- `ProofNode.summarize_proof`: mandatory-variable subproofs, then
hypothesis subproofs, then this node's label. -/
def summarize : ProofNode → List String
  | .mk l _ _ mvs hs _ _ => summarizeList mvs ++ summarizeList hs ++ [l]

/-- Concatenated summaries of a list of nodes (the Python `for` loops in
`summarize_proof`). -/
def summarizeList : List ProofNode → List String
  | [] => []
  | n :: ns => summarize n ++ summarizeList ns

end

mutual

/-- All nodes of a tree (the node itself and, recursively, its children). -/
def allNodes : ProofNode → List ProofNode
  | .mk l t e mvs hs s nm =>
      ProofNode.mk l t e mvs hs s nm :: (allNodesList mvs ++ allNodesList hs)

def allNodesList : List ProofNode → List ProofNode
  | [] => []
  | n :: ns => allNodes n ++ allNodesList ns

end

/-! ## FrameStack (`class Frame`, `class FrameStack`)

A `FrameStack` is modelled as a `List Frame` in Python's list order: the
OUTERMOST frame is at the head, the innermost (`self[-1]`) is the last
element.  Python sets (`c`, `v`, `d`) become lists; only membership is ever
read from them.  Python dicts (`f_labels`, `e_labels`) become association
lists (keys are unique by construction in the source, so first-match lookup
agrees with dict lookup). -/

structure Frame where
  c : List String
  v : List String
  d : List (String × String)
  f : List (String × String)          -- (variable, typecode) in declaration order
  f_labels : List (String × String)   -- variable → label
  e : List (List String)
  e_labels : List (List String × String)
deriving DecidableEq, Repr

/-- The empty frame (`Frame.__init__`). -/
def Frame.empty : Frame := ⟨[], [], [], [], [], [], []⟩

/-- Update the innermost (last) frame, `None` when the stack is empty
(Python would raise `IndexError` on `self[-1]`). -/
def updateLast (fs : List Frame) (g : Frame → Option Frame) : Option (List Frame) :=
  match fs.getLast? with
  | none => none
  | some fr => (g fr).map fun fr2 => fs.dropLast ++ [fr2]

/-- `FrameStack.add_c`: reject only if `tok` is already a constant or a
variable of the INNERMOST frame; `none` on rejection (`MMError`) or on an
empty stack. -/
def add_c (fs : List Frame) (tok : String) : Option (List Frame) :=
  updateLast fs fun fr =>
    if tok ∈ fr.c then none
    else if tok ∈ fr.v then none
    else some { fr with c := fr.c ++ [tok] }

/-- `FrameStack.add_v`: reject only if `tok` is already a variable or a
constant of the INNERMOST frame. -/
def add_v (fs : List Frame) (tok : String) : Option (List Frame) :=
  updateLast fs fun fr =>
    if tok ∈ fr.v then none
    else if tok ∈ fr.c then none
    else some { fr with v := fr.v ++ [tok] }

/-- `FrameStack.lookup_c` (membership in any frame; the reversed iteration
order of the source cannot change the result of `any`). -/
def lookup_c (fs : List Frame) (tok : String) : Bool :=
  fs.any fun fr => tok ∈ fr.c

/-- `FrameStack.lookup_v`. -/
def lookup_v (fs : List Frame) (tok : String) : Bool :=
  fs.any fun fr => tok ∈ fr.v

/-- `FrameStack.lookup_d`: is the canonically ordered pair declared disjoint
in some frame? -/
def lookup_d (fs : List Frame) (x y : String) : Bool :=
  fs.any fun fr => (min x y, max x y) ∈ fr.d

/-- `FrameStack.add_f`: the variable must be declared, the typecode must be a
declared constant, and the variable must not already carry a floating
hypothesis in the innermost frame. -/
def add_f (fs : List Frame) (var kind lbl : String) : Option (List Frame) :=
  if ¬ lookup_v fs var then none
  else if ¬ lookup_c fs kind then none
  else updateLast fs fun fr =>
    if (fr.f_labels.lookup var).isSome then none
    else some { fr with f := fr.f ++ [(var, kind)], f_labels := fr.f_labels ++ [(var, lbl)] }

/-- `FrameStack.add_e`. -/
def add_e (fs : List Frame) (stat : List String) (lbl : String) : Option (List Frame) :=
  updateLast fs fun fr =>
    some { fr with e := fr.e ++ [stat], e_labels := fr.e_labels ++ [(stat, lbl)] }

/-- `FrameStack.lookup_f`: innermost frame first; `none` = `MMKeyError`. -/
def lookupFAux (var : String) : List Frame → Option String
  | [] => none
  | fr :: rest =>
    match fr.f_labels.lookup var with
    | some l => some l
    | none => lookupFAux var rest

def lookup_f (fs : List Frame) (var : String) : Option String :=
  lookupFAux var fs.reverse

/-- `FrameStack.lookup_e`: innermost frame first; `none` = `MMKeyError`. -/
def lookupEAux (stmt : List String) : List Frame → Option String
  | [] => none
  | fr :: rest =>
    match fr.e_labels.lookup stmt with
    | some l => some l
    | none => lookupEAux stmt rest

def lookup_e (fs : List Frame) (stmt : List String) : Option String :=
  lookupEAux stmt fs.reverse

/-- The mandatory-variable set of `make_assertion`: every token of an
essential hypothesis or of the statement that is a declared variable.  The
Python value is a set; it is modelled as a duplicate-free list (membership
and removal are the only operations applied to it). -/
def mandVarsOf (fs : List Frame) (stat : List String) : List String :=
  ((((fs.map Frame.e).flatten) ++ [stat]).flatten.filter (lookup_v fs)).dedup

/-- One step of the floating-hypothesis selection loop of `make_assertion`:
`if v in mand_vars: f_hyps.appendleft((k, v)); mand_vars.remove(v)`
(the deque with its `appendleft` is the accumulated list with `cons`). -/
def fHypStep (acc : List (String × String) × List String) (vk : String × String) :
    List (String × String) × List String :=
  if vk.1 ∈ acc.2 then ((vk.2, vk.1) :: acc.1, acc.2.erase vk.1) else acc

/-- `FrameStack.make_assertion`: the `(dvs, f_hyps, e_hyps, stat)` tuple.
The `dvs` set is modelled as a list (possible duplicates are irrelevant to
every consumer modelled here, which only tests membership / iterates with an
order-insensitive outcome). -/
def make_assertion (fs : List Frame) (stat : List String) : Assertion :=
  let e_hyps := (fs.map Frame.e).flatten
  let mand_vars := mandVarsOf fs stat
  let dvs := (fs.map fun fr =>
    fr.d.filter fun xy => xy.1 ∈ mand_vars && xy.2 ∈ mand_vars).flatten
  let f_hyps :=
    ((fs.reverse).foldl (fun acc fr => (fr.f.reverse).foldl fHypStep acc) ([], mand_vars)).1
  ⟨dvs, f_hyps, e_hyps, stat⟩

/-! ## Verifier environment and substitution (`class MM`) -/

/-- The parts of the `MM` object read by the verifier/propagator: the frame
stack and the label table `labels : label → (kind, data)`. -/
structure Env where
  fs : List Frame
  labels : String → Option (Kind × LabelData)

/-- A substitution (Python dict `subst`), as a partial map. -/
def Subst := String → Option (List String)

def emptySubst : Subst := fun _ => none

def substUpdate (σ : Subst) (v : String) (e : List String) : Subst :=
  fun x => if x = v then some e else σ x

/-- `MM.apply_subst`. -/
def apply_subst (stat : List String) (σ : Subst) : List String :=
  (stat.map fun tok =>
    match σ tok with
    | some e => e
    | none => [tok]).flatten

/-- `MM.find_vars`: the distinct declared variables of `stat` in first
occurrence order. -/
def find_vars (fs : List Frame) (stat : List String) : List String :=
  stat.foldl (fun vars x =>
    if x ∈ vars then vars
    else if lookup_v fs x then vars ++ [x] else vars) []

/-- `pat` is a prefix of `s` (character lists). -/
def startsWithL : List Char → List Char → Bool
  | [], _ => true
  | _ :: _, [] => false
  | a :: ps, b :: ss => a = b && startsWithL ps ss

/-- Substring containment on character lists. -/
def containsSubL (pat : List Char) : List Char → Bool
  | [] => pat.isEmpty
  | c :: rest => startsWithL pat (c :: rest) || containsSubL pat rest

/-- Python's `pat in s` on strings. -/
def strContainsSub (s pat : String) : Bool :=
  containsSubL pat.data s.data

/-! ## The stack machine (`MM.propagate`, `MM.verify_custom`)

Failure modes: `raised` is a raised `MMError`, `probe` is the probe-mode
early `return False, None`, `crash` is a raw Python exception
(`IndexError`/`KeyError`/unpacking error). -/

inductive VErr where
  | raised | probe | crash
deriving DecidableEq, Repr

/-- The mandatory-variable binding loop: for each `(k, v)` of `mand_var` and
the corresponding popped node, require the node's expression to start with
the typecode `k` and bind `v` to the tail.  `mismatchErr` is `raised` in
strict mode and `probe` otherwise; an empty expression crashes (`entry[0]`).
-/
def bindMand (mismatchErr : VErr) : List ((String × String) × ProofNode) → Subst → Except VErr Subst
  | [], σ => .ok σ
  | ((k, v), node) :: rest, σ =>
    match node.expr with
    | [] => .error .crash
    | t :: es =>
      if t = k then bindMand mismatchErr rest (substUpdate σ v es)
      else .error mismatchErr

/-- The hypothesis-matching loop: each popped node's expression must equal
the substituted hypothesis template. -/
def checkHyps (mismatchErr : VErr) (σ : Subst) : List (List String × ProofNode) → Except VErr Unit
  | [] => .ok ()
  | (h, node) :: rest =>
    if node.expr = apply_subst h σ then checkHyps mismatchErr σ rest
    else .error mismatchErr

/-- The strict-mode (`mode == "error"`) per-pair disjointness test of
`verify_custom`: with an empty or expansion-generated name only identical
variables violate; otherwise identical variables or pairs without a declared
`$d` violate.  Returns `true` when some pair of the cartesian product
violates (the iteration order of the source only affects which pair raises
first, not whether an error is raised). -/
def checkPairsStrict (fs : List Frame) (name : String) (xv yv : List String) : Bool :=
  if name = "" || strContainsSub name "expand" then
    xv.any fun a => yv.any fun b => a = b
  else
    xv.any fun a => yv.any fun b => a = b || !(lookup_d fs a b)

/-- The disjoint-variable loop of `verify_custom` (lines 855-871): in strict
mode it tests each pair of the product of the substituted variable sets; in
probe mode it returns `False, None` as soon as the product is nonempty.  A
missing substitution entry is a `KeyError` crash. -/
def checkDisjointV (env : Env) (strict : Bool) (name : String) (σ : Subst) :
    List (String × String) → Except VErr Unit
  | [] => .ok ()
  | (x, y) :: rest =>
    match σ x, σ y with
    | some ex, some ey =>
      let xv := find_vars env.fs ex
      let yv := find_vars env.fs ey
      if strict then
        if checkPairsStrict env.fs name xv yv then .error .raised
        else checkDisjointV env strict name σ rest
      else
        if !xv.isEmpty && !yv.isEmpty then .error .probe
        else checkDisjointV env strict name σ rest
    | _, _ => .error .crash

/-- The disjoint-variable loop of `MM.propagate` (lines 707-715): only
identical variables in the product violate, always raising `MMError`. -/
def checkDisjointP (env : Env) (σ : Subst) : List (String × String) → Except VErr Unit
  | [] => .ok ()
  | (x, y) :: rest =>
    match σ x, σ y with
    | some ex, some ey =>
      let xv := find_vars env.fs ex
      let yv := find_vars env.fs ey
      if xv.any fun a => yv.any fun b => a = b then .error .raised
      else checkDisjointP env σ rest
    | _, _ => .error .crash

/-- One `$a`/`$p` step of `verify_custom`: pop `|mand_var| + |hyp|` operands
(`block`, bottom-to-top), bind the mandatory variables from the first
`|mand_var|` of them, check disjointness and hypotheses, push the node with
the substituted result expression. -/
def vStepAssert (env : Env) (strict : Bool) (name : String) (stack : List ProofNode)
    (lbl : String) (k : Kind) (a : Assertion) : Except VErr (List ProofNode) :=
  let npop := a.f_hyps.length + a.e_hyps.length
  if stack.length < npop then .error (if strict then .raised else .probe)
  else
    let rest := stack.take (stack.length - npop)
    let block := stack.drop (stack.length - npop)
    let mvNodes := block.take a.f_hyps.length
    let hypNodes := block.drop a.f_hyps.length
    match bindMand (if strict then .raised else .probe) (a.f_hyps.zip mvNodes) emptySubst with
    | .error e => .error e
    | .ok σ =>
      match checkDisjointV env strict name σ a.dvs with
      | .error e => .error e
      | .ok _ =>
        match checkHyps (if strict then .raised else .probe) σ (a.e_hyps.zip hypNodes) with
        | .error e => .error e
        | .ok _ => .ok (rest ++ [.mk lbl k (apply_subst a.stat σ) mvNodes hypNodes false ""])

/-- One step of the label loop of `verify_custom` (with `num_expand = 0`,
the value of every call made outside the expansion pass): `$e`/`$f` push a
leaf, `$a`/`$p` run `vStepAssert`, an unknown label is a `KeyError` crash, a
kind/data mismatch is an unpacking crash. -/
def vStep (env : Env) (strict : Bool) (name : String) (stack : List ProofNode)
    (lbl : String) : Except VErr (List ProofNode) :=
  match env.labels lbl with
  | none => .error .crash
  | some (.a, .assertion a) => vStepAssert env strict name stack lbl .a a
  | some (.p, .assertion a) => vStepAssert env strict name stack lbl .p a
  | some (.e, .hyp ex) => .ok (stack ++ [.mk lbl .e ex [] [] false ""])
  | some (.f, .hyp ex) => .ok (stack ++ [.mk lbl .f ex [] [] false ""])
  | some _ => .error .crash

/-- The whole label loop of `verify_custom`, processing labels left to
right. -/
def vSteps (env : Env) (strict : Bool) (name : String) : List String → List ProofNode → Except VErr (List ProofNode)
  | [], stack => .ok stack
  | lbl :: rest, stack =>
    match vStep env strict name stack lbl with
    | .error e => .error e
    | .ok stack2 => vSteps env strict name rest stack2

/-- One `$a`/`$p` step of `MM.propagate` (identical to the strict
`verify_custom` step except for its disjointness loop). -/
def pStepAssert (env : Env) (stack : List ProofNode) (lbl : String) (k : Kind)
    (a : Assertion) : Except VErr (List ProofNode) :=
  let npop := a.f_hyps.length + a.e_hyps.length
  if stack.length < npop then .error .raised
  else
    let rest := stack.take (stack.length - npop)
    let block := stack.drop (stack.length - npop)
    let mvNodes := block.take a.f_hyps.length
    let hypNodes := block.drop a.f_hyps.length
    match bindMand .raised (a.f_hyps.zip mvNodes) emptySubst with
    | .error e => .error e
    | .ok σ =>
      match checkDisjointP env σ a.dvs with
      | .error e => .error e
      | .ok _ =>
        match checkHyps .raised σ (a.e_hyps.zip hypNodes) with
        | .error e => .error e
        | .ok _ => .ok (rest ++ [.mk lbl k (apply_subst a.stat σ) mvNodes hypNodes false ""])

/-- One step of the label loop of `MM.propagate`. -/
def pStep (env : Env) (stack : List ProofNode) (lbl : String) : Except VErr (List ProofNode) :=
  match env.labels lbl with
  | none => .error .crash
  | some (.a, .assertion a) => pStepAssert env stack lbl .a a
  | some (.p, .assertion a) => pStepAssert env stack lbl .p a
  | some (.e, .hyp ex) => .ok (stack ++ [.mk lbl .e ex [] [] false ""])
  | some (.f, .hyp ex) => .ok (stack ++ [.mk lbl .f ex [] [] false ""])
  | some _ => .error .crash

/-- The label loop of `MM.propagate`. -/
def pSteps (env : Env) : List String → List ProofNode → Except VErr (List ProofNode)
  | [], stack => .ok stack
  | lbl :: rest, stack =>
    match pStep env stack lbl with
    | .error e => .error e
    | .ok stack2 => pSteps env rest stack2

/-- `MM.propagate`: run the loop; afterwards `stack[0].set_name(name)`
(`IndexError` on an empty stack), require a singleton stack (`MMError`
otherwise), and check the source's own
`assert stack[0].summarize_proof() == proof` (modelled as a crash when
false; the round-trip theorem below proves it can never fire). -/
def propagate (env : Env) (proof : List String) (name : String) : Option ProofNode :=
  match pSteps env proof [] with
  | .error _ => none
  | .ok [] => none
  | .ok (n :: rest) =>
    let n1 := n.setName name
    if rest.isEmpty then
      if summarize n1 = proof then some n1 else none
    else none

/-! ## Proof decompression (`MM.decompress_proof`) -/

/-- The character-decoding loop building `proof_ints`: `A..T` close a base-20
digit (appended zero-indexed), `U..Y` accumulate base-5 high digits, `Z`
appends the `-1` back-reference marker, every other character is skipped. -/
def proofIntStep (acc : Int × List Int) (ch : Char) : Int × List Int :=
  if ch = 'Z' then (acc.1, acc.2 ++ [-1])
  else if 'A' ≤ ch ∧ ch ≤ 'T' then
    (0, acc.2 ++ [20 * acc.1 + ((ch.toNat : Int) - ('A'.toNat : Int) + 1) - 1])
  else if 'U' ≤ ch ∧ ch ≤ 'Y' then
    (5 * acc.1 + ((ch.toNat : Int) - ('U'.toNat : Int) + 1), acc.2)
  else acc

def proofInts (compressed : List Char) : List Int :=
  (compressed.foldl proofIntStep (0, [])).2

/-- Python's `l[-n:]` (last `n` elements, the whole list when `n ≥ |l|`). -/
def lastSlice (l : List (List Int)) (n : Nat) : List (List Int) :=
  l.drop (l.length - n)

/-- Python's `l[:-n]` for `n ≥ 1`. -/
def dropSlice (l : List (List Int)) (n : Nat) : List (List Int) :=
  l.take (l.length - n)

/-- The integer-expansion loop of `decompress_proof`, over
`(decompressed_ints, subproofs, prev_proofs)`.  `-1` records the most recent
subproof on `subproofs` (crashing when there is none) and emits nothing;
in-range integers emit themselves and maintain `prev_proofs`; integers at or
beyond `label_end` splice in a recorded subproof.  An integer below `-1`
matches no branch of the Python `elif` chain and is silently skipped. -/
def decompLoop (env : Env) (labels1 : List String) (hyp_end : Nat) :
    List Int → List Int → List (List Int) → List (List Int) → Option (List Int)
  | [], dec, _, _ => some dec
  | pf :: rest, dec, subproofs, prev_proofs =>
    if pf = -1 then
      match prev_proofs.getLast? with
      | none => none
      | some last => decompLoop env labels1 hyp_end rest dec (subproofs ++ [last]) prev_proofs
    else if 0 ≤ pf ∧ pf < (hyp_end : Int) then
      decompLoop env labels1 hyp_end rest (dec ++ [pf]) subproofs (prev_proofs ++ [[pf]])
    else if (hyp_end : Int) ≤ pf ∧ pf < (labels1.length : Int) then
      match labels1.get? pf.toNat with
      | none => none
      | some lbl =>
        match env.labels lbl with
        | none => none
        | some (.a, .assertion a) | some (.p, .assertion a) =>
          let nshyps := a.e_hyps.length + a.f_hyps.length
          if nshyps ≠ 0 then
            let new_prevpf := (lastSlice prev_proofs nshyps).flatten ++ [pf]
            decompLoop env labels1 hyp_end rest (dec ++ [pf]) subproofs
              (dropSlice prev_proofs nshyps ++ [new_prevpf])
          else
            decompLoop env labels1 hyp_end rest (dec ++ [pf]) subproofs (prev_proofs ++ [[pf]])
        | some (.a, _) | some (.p, _) => none
        | some _ =>
          decompLoop env labels1 hyp_end rest (dec ++ [pf]) subproofs (prev_proofs ++ [[pf]])
    else if (labels1.length : Int) ≤ pf then
      match subproofs.get? (pf.toNat - labels1.length) with
      | none => none
      | some pfl => decompLoop env labels1 hyp_end rest (dec ++ pfl) subproofs (prev_proofs ++ [pfl])
    else
      decompLoop env labels1 hyp_end rest dec subproofs prev_proofs

/-- `MM.decompress_proof`: recompute the assertion, resolve the mandatory
floating/essential hypothesis labels, append the local labels between `(`
and `)`, decode the compressed character run and expand the integers. -/
def decompress_proof (env : Env) (stat : List String) (proof : List String) : Option (List String) :=
  let a := make_assertion env.fs stat
  match (a.f_hyps.mapM fun kv => lookup_f env.fs kv.2), (a.e_hyps.mapM fun s => lookup_e env.fs s) with
  | some mand_hyps, some hyps =>
    let labels0 := mand_hyps ++ hyps
    let hyp_end := labels0.length
    match proof.findIdx? (· = ")") with
    | none => none
    | some ep =>
      let labels1 := labels0 ++ (proof.take ep).drop 1
      let compressed := String.join (proof.drop (ep + 1))
      match decompLoop env labels1 hyp_end (proofInts compressed.data) [] [] [] with
      | none => none
      | some dec => dec.mapM fun i => labels1.get? i.toNat
  | _, _ => none

/-- Line 813 of `verify_custom`:
`if proof[0] == '(': proof = self.decompress_proof(stat, proof)`. -/
def decompressIfCompressed (env : Env) (stat : List String) (proof : List String) :
    Option (List String) :=
  if proof.head? = some "(" then decompress_proof env stat proof else some proof

/-- Result of a `verify_custom` call: `ok` is `(True, node)`, `failNone` is
`(False, None)`, `failNode` is `(False, node)`, `raised` is an `MMError`,
`crash` a raw exception. -/
inductive VRes where
  | ok (n : ProofNode)
  | failNone
  | failNode (n : ProofNode)
  | raised
  | crash

/-- `MM.verify_custom` with `num_expand = 0` (the value used by every call
modelled here; with it `times = 1`, the expansion branch is dead and the
function returns inside the single loop iteration).  `strict` is
`mode == "error"`.  After the loop: `stack[0].set_name(name)` (crash on an
empty stack — only reachable for an empty label list), the singleton-stack
check, the conclusion check, and the source's
`assert stack[0].summarize_proof() == proof` (reached when `name` is
nonempty; the round-trip theorem proves it never fires). -/
def verify_custom (env : Env) (strict : Bool) (stat : List String) (proof0 : List String)
    (name : String) : VRes :=
  match proof0 with
  | [] => .crash
  | _ :: _ =>
    match decompressIfCompressed env stat proof0 with
    | none => .crash
    | some proof =>
      match vSteps env strict name proof [] with
      | .error .raised => .raised
      | .error .probe => .failNone
      | .error .crash => .crash
      | .ok [] => .crash
      | .ok (n :: rest) =>
        let n1 := n.setName name
        if rest.isEmpty then
          if n1.expr = stat then
            if name.length > 0 ∧ summarize n1 ≠ proof then .crash
            else .ok n1
          else if strict then .raised else .failNode n1
        else if strict then .raised else .failNone

/-! ## ProofNode tree algorithms -/

instance : Inhabited ProofNode := ⟨.mk "" .f [] [] [] false ""⟩

/-- Set only this node's `subst` flag. -/
def setSubstTrue : ProofNode → ProofNode
  | .mk l t e mvs hs _ nm => .mk l t e mvs hs true nm

def setSubstFalse : ProofNode → ProofNode
  | .mk l t e mvs hs _ nm => .mk l t e mvs hs false nm

mutual

/-- `ProofNode.color_all`: mark the whole subtree substituted. -/
def colorAll : ProofNode → ProofNode
  | .mk l t e mvs hs _ nm => .mk l t e (colorAllList mvs) (colorAllList hs) true nm

def colorAllList : List ProofNode → List ProofNode
  | [] => []
  | n :: ns => colorAll n :: colorAllList ns

end

mutual

/-- `ProofNode.mark_subst`: copy the `subst` flag from the parallel node,
recurse over the zipped children (the recursive calls use the default
`propagate=True`), then with `propagate` force this node and all its
immediate children substituted when any immediate child is (OR-propagation).
Children beyond the zip (when the parallel node has fewer) are left
untouched, as by Python's `zip`. -/
def markSubst (propagate : Bool) : ProofNode → ProofNode → ProofNode
  | .mk l t e mvs hs _ nm, .mk _ _ _ omvs ohs osubst _ =>
    let mvs2 := markSubstZip mvs omvs
    let hs2 := markSubstZip hs ohs
    let list_subst := mvs2.map ProofNode.subst ++ hs2.map ProofNode.subst
    if propagate ∧ 0 < list_subst.length ∧ list_subst.any id then
      .mk l t e (mvs2.map setSubstTrue) (hs2.map setSubstTrue) true nm
    else
      .mk l t e mvs2 hs2 osubst nm

def markSubstZip : List ProofNode → List ProofNode → List ProofNode
  | xs, [] => xs
  | [], _ :: _ => []
  | x :: xs, y :: ys => markSubst true x y :: markSubstZip xs ys

end

mutual

/-- `ProofNode.copy_subst_from_node`: copy the flags structurally with no
propagation. -/
def copySubst : ProofNode → ProofNode → ProofNode
  | .mk l t e mvs hs _ nm, .mk _ _ _ omvs ohs osubst _ =>
    .mk l t e (copySubstZip mvs omvs) (copySubstZip hs ohs) osubst nm

def copySubstZip : List ProofNode → List ProofNode → List ProofNode
  | xs, [] => xs
  | [], _ :: _ => []
  | x :: xs, y :: ys => copySubst x y :: copySubstZip xs ys

end

mutual

/-- Trees of identical shape (same child-list lengths throughout). -/
def sameShape : ProofNode → ProofNode → Bool
  | .mk _ _ _ mvs hs _ _, .mk _ _ _ omvs ohs _ _ =>
    sameShapeList mvs omvs && sameShapeList hs ohs

def sameShapeList : List ProofNode → List ProofNode → Bool
  | [], [] => true
  | x :: xs, y :: ys => sameShape x y && sameShapeList xs ys
  | _, _ => false

end

mutual

/-- Pointwise implication of `subst` flags over two same-shaped trees:
every flag set in the first is set in the second. -/
def flagsLe : ProofNode → ProofNode → Bool
  | .mk _ _ _ mvs hs s _, .mk _ _ _ omvs ohs s2 _ =>
    (!s || s2) && flagsLeList mvs omvs && flagsLeList hs ohs

def flagsLeList : List ProofNode → List ProofNode → Bool
  | [], [] => true
  | x :: xs, y :: ys => flagsLe x y && flagsLeList xs ys
  | _, _ => false

end

mutual

/-- `ProofNode.get_leaves` (with the default `change_type=False`): all
childless descendants, left to right, mandatory-variable children before
hypothesis children; the root itself is never included. -/
def getLeaves : ProofNode → List ProofNode
  | .mk _ _ _ mvs hs _ _ => getLeavesList mvs ++ getLeavesList hs

def getLeavesList : List ProofNode → List ProofNode
  | [] => []
  | n :: ns =>
    (if n.mand_vars.isEmpty && n.hps.isEmpty then [n] else getLeaves n) ++ getLeavesList ns

end

mutual

/-- `theorem_refactor.get_post_order`. -/
def postOrder : ProofNode → List ProofNode
  | .mk l t e mvs hs s nm =>
      postOrderList mvs ++ postOrderList hs ++ [ProofNode.mk l t e mvs hs s nm]

def postOrderList : List ProofNode → List ProofNode
  | [] => []
  | n :: ns => postOrder n ++ postOrderList ns

end

/-- `theorem_refactor.get_dfs`: the worklist traversal visits exactly the
nodes of the tree in preorder, i.e. the `allNodes` order. -/
def getDfs : ProofNode → List ProofNode := allNodes

mutual

/-- `ProofNode.find_max_height`: leaves have height 1; otherwise one more
than the running maximum over the mandatory-variable and hypothesis
children. -/
def findMaxHeight : ProofNode → Nat
  | .mk _ _ _ mvs hs _ _ =>
    if mvs.isEmpty && hs.isEmpty then 1
    else max (findMaxHeightList mvs) (findMaxHeightList hs) + 1

/-- Maximum of the heights of a list of nodes (the two `for` loops with the
`-1` initial value, immaterial since every height is at least 1). -/
def findMaxHeightList : List ProofNode → Nat
  | [] => 0
  | n :: ns => max (findMaxHeight n) (findMaxHeightList ns)

end

mutual

/-- The coloring loop of `additional_check`/`refactor_proof_single`:
`leaves[i].subst = True` for every `$e`/`$f` entry of `get_leaves()`
(through the aliases, i.e. at every childless `$e`/`$f` descendant of the
tree). -/
def colorEFLeaves : ProofNode → ProofNode
  | .mk l t e mvs hs s nm =>
      .mk l t e (colorEFLeavesList mvs) (colorEFLeavesList hs) s nm

def colorEFLeavesList : List ProofNode → List ProofNode
  | [] => []
  | n :: ns =>
    (if n.mand_vars.isEmpty && n.hps.isEmpty then
      (if n.typ = Kind.e ∨ n.typ = Kind.f then setSubstTrue n else n)
     else colorEFLeaves n) :: colorEFLeavesList ns

end

/-- `theorem_refactor.follow_color` is textually the same recursion as
`ProofNode.copy_subst_from_node`. -/
def followColor : ProofNode → ProofNode → ProofNode := copySubst

/-! ## The claimed (spec-side) ordering of mandatory floating hypotheses
(for comparison with `make_assertion`) -/

/-- Does some frame of the list declare a floating hypothesis for `v`? -/
def innerHasF (frames : List Frame) (v : String) : Bool :=
  frames.any fun fr => fr.f.any fun vk => vk.1 = v

/-- The mandatory floating hypotheses written directly from their
description: frames OUTERMOST first (the head of the Python list), inside a
frame in declaration order, selecting `(typecode, v)` for each mandatory `v`
whose innermost floating declaration lives in that frame. -/
def fHypsOuterFirst : List Frame → List String → List (String × String)
  | [], _ => []
  | fr :: rest, mv =>
    ((fr.f.filter fun vk => decide (vk.1 ∈ mv) && !(innerHasF rest vk.1)).map
      fun vk => (vk.2, vk.1)) ++ fHypsOuterFirst rest mv

/-! ## Refactoring engine (theorem_refactor.py)

`additional_check` and `refactor_proof_single` temporarily color the two
trees (`leaves[i].subst = True` on the template's `$e`/`$f` leaves,
`follow_color` copying those flags onto the original) and uncolor everything
before returning, restoring both inputs; the pure model therefore computes
with the colored copies (`colorEFLeaves`, `followColor`) and — for
`refactor_proof_single` — clears the flags of the selected leaf subtrees
explicitly.  Python `assert` failures and `IndexError`/`KeyError` are
`none`/`.error ()`. -/

/-- The bucket construction shared by `additional_check` and
`refactor_proof_single`: each `$f` leaf of the template whose 2-token
expression equals a mandatory `(typecode, var)` pair contributes its leaf
index (an index into the parallel `leaves`/`colored_leaves` lists) to that
pair's bucket. -/
def mkBuckets (matching_mand_vars : List (String × String))
    (pairs : List (ProofNode × Nat)) (num : Nat) : List (List Nat) :=
  pairs.foldl (fun bks lv =>
    match lv.1.expr with
    | [k2, v2] =>
      match matching_mand_vars.findIdx? (· == (k2, v2)) with
      | some j => bks.set j (bks.getD j [] ++ [lv.2])
      | none => bks
    | _ => bks) (List.replicate num [])

/-- `theorem_refactor.additional_check`: verify that all occurrences of each
mandatory variable of the template are matched by the same concrete
expression in the original subtree.  `none` models a crash (entry asserts,
length asserts, a missing or non-assertion label-table entry for the
template's name). -/
def additional_check (original matching : ProofNode)
    (lbls : String → Option (Kind × LabelData)) : Option Bool :=
  if (getDfs original).any ProofNode.subst then none
  else if (getDfs matching).any ProofNode.subst then none
  else
    let mColored := colorEFLeaves matching
    let leaves := (getLeaves mColored).filter fun n => n.typ == Kind.e || n.typ == Kind.f
    let origColored := followColor original mColored
    let colored_leaves := (postOrder origColored).filter ProofNode.subst
    if colored_leaves.length ≠ leaves.length then none
    else
      match lbls matching.name with
      | some (_, LabelData.assertion a) =>
        let matching_mand_vars := a.f_hyps
        if ¬ matching_mand_vars.Nodup then none
        else
          let leaves_mand_vars_indices :=
            (leaves.enum.filter fun iv => iv.2.typ == Kind.f).map Prod.fst
          let leaves_mand_vars := leaves.filter fun n => n.typ == Kind.f
          let leaves_hps_indices :=
            (leaves.enum.filter fun iv => iv.2.typ == Kind.e).map Prod.fst
          if leaves_hps_indices.length ≠ a.e_hyps.length then none
          else
            let buckets := mkBuckets matching_mand_vars
              (leaves_mand_vars.zip leaves_mand_vars_indices) a.f_hyps.length
            some (buckets.all fun bucket =>
              ((bucket.map fun i => (colored_leaves.getD i default).expr).dedup).length = 1)
      | _ => none

/-- `theorem_refactor.refactor_proof_single`: rewrite the matched node into
a single step invoking the template theorem, its children being the
(first-of-bucket) matched leaf subtrees for the mandatory variables followed
by the matched hypothesis subtrees, everything uncolored. -/
def refactor_proof_single (original matching : ProofNode)
    (lbls : String → Option (Kind × LabelData)) : Option ProofNode :=
  if (getDfs original).any ProofNode.subst then none
  else if (getDfs matching).any ProofNode.subst then none
  else
    let mColored := colorEFLeaves matching
    let leaves := (getLeaves mColored).filter fun n => n.typ == Kind.e || n.typ == Kind.f
    let origColored := followColor original mColored
    let colored_leaves := (postOrder origColored).filter ProofNode.subst
    if colored_leaves.length ≠ leaves.length then none
    else
      match lbls matching.name with
      | some (_, LabelData.assertion a) =>
        let matching_mand_vars := a.f_hyps
        if ¬ matching_mand_vars.Nodup then none
        else
          let leaves_mand_vars_indices :=
            (leaves.enum.filter fun iv => iv.2.typ == Kind.f).map Prod.fst
          let leaves_mand_vars := leaves.filter fun n => n.typ == Kind.f
          let leaves_hps_indices :=
            (leaves.enum.filter fun iv => iv.2.typ == Kind.e).map Prod.fst
          if leaves_hps_indices.length ≠ a.e_hyps.length then none
          else
            let buckets := mkBuckets matching_mand_vars
              (leaves_mand_vars.zip leaves_mand_vars_indices) a.f_hyps.length
            if ¬ (buckets.all fun bucket =>
                ((bucket.map fun i => (colored_leaves.getD i default).expr).dedup).length = 1)
            then none
            else
              let needed_mv := buckets.map fun bucket =>
                colored_leaves.getD (bucket.headD 0) default
              let needed_hps := leaves_hps_indices.map fun i =>
                colored_leaves.getD i default
              some (ProofNode.mk matching.name Kind.p original.expr
                (needed_mv.map setSubstFalse) (needed_hps.map setSubstFalse)
                false original.name)
      | _ => none

mutual

/-- `theorem_refactor.match_theorem_current_node`: two nodes match when the
template node's label is a hypothesis (matches anything, asserting it is
childless), or the labels are equal and the children match pairwise, running
`additional_check` when the counter reaches 0.  `.ok none` is Python's
`return None`, `.error ()` a crash (failed assert, label-table miss). -/
def matchNode (lbls : String → Option (Kind × LabelData)) (counter : Int) :
    ProofNode → ProofNode → Except Unit (Option ProofNode)
  | orig, ProofNode.mk ml mt me mmvs mhs ms mnm =>
    match lbls ml with
    | some (Kind.a, _) | some (Kind.p, _) =>
      if orig.label ≠ ml then .ok none
      else if mmvs.length ≠ orig.mand_vars.length then .error ()
      else if mhs.length ≠ orig.hps.length then .error ()
      else
        match matchChildren lbls (counter - 1) orig.mand_vars mmvs with
        | .error u => .error u
        | .ok false => .ok none
        | .ok true =>
          match matchChildren lbls (counter - 1) orig.hps mhs with
          | .error u => .error u
          | .ok false => .ok none
          | .ok true =>
            if counter = 0 then
              match additional_check orig (ProofNode.mk ml mt me mmvs mhs ms mnm) lbls with
              | none => .error ()
              | some true => .ok (some orig)
              | some false => .ok none
            else .ok (some orig)
    | some (Kind.e, _) | some (Kind.f, _) =>
      if ¬ mmvs.isEmpty then .error ()
      else if ¬ mhs.isEmpty then .error ()
      else .ok (some orig)
    | none => .error ()

/-- The child-matching loops: `true` when all template children match. -/
def matchChildren (lbls : String → Option (Kind × LabelData)) (counter : Int) :
    List ProofNode → List ProofNode → Except Unit Bool
  | _, [] => .ok true
  | [], _ :: _ => .error ()
  | o :: os, m :: ms =>
    match matchNode lbls counter o m with
    | .error u => .error u
    | .ok none => .ok false
    | .ok (some _) => matchChildren lbls counter os ms

end

mutual

/-- The inner loop of `refactor_all` (lines 211-228): scan the post-order
traversal of the current proof for the first node matching the new theorem
(`match_theorem_current_node` with counter 0) and rewrite it in place with
`refactor_proof_single`; `.ok none` when no node matches (`finish_flag`). -/
def rewriteFirstMatch (lbls : String → Option (Kind × LabelData))
    (newProof : ProofNode) : ProofNode → Except Unit (Option ProofNode)
  | ProofNode.mk l t e mvs hs s nm =>
    match rewriteFirstMatchList lbls newProof mvs with
    | .error u => .error u
    | .ok (some mvs2) => .ok (some (ProofNode.mk l t e mvs2 hs s nm))
    | .ok none =>
      match rewriteFirstMatchList lbls newProof hs with
      | .error u => .error u
      | .ok (some hs2) => .ok (some (ProofNode.mk l t e mvs hs2 s nm))
      | .ok none =>
        match matchNode lbls 0 (ProofNode.mk l t e mvs hs s nm) newProof with
        | .error u => .error u
        | .ok none => .ok none
        | .ok (some _) =>
          match refactor_proof_single (ProofNode.mk l t e mvs hs s nm) newProof lbls with
          | none => .error ()
          | some res => .ok (some res)

def rewriteFirstMatchList (lbls : String → Option (Kind × LabelData))
    (newProof : ProofNode) : List ProofNode → Except Unit (Option (List ProofNode))
  | [] => .ok none
  | n :: ns =>
    match rewriteFirstMatch lbls newProof n with
    | .error u => .error u
    | .ok (some n2) => .ok (some (n2 :: ns))
    | .ok none =>
      match rewriteFirstMatchList lbls newProof ns with
      | .error u => .error u
      | .ok (some ns2) => .ok (some (n :: ns2))
      | .ok none => .ok none

end

/-- One rewrite attempt of `refactor_all` on the current proof tree: find
and rewrite the first matching node, then re-verify the whole rewritten
proof with `mm.verify_custom(expr, summarize_proof(), name='', mode='other')`;
any outcome other than success aborts
(`raise NotImplementedError('failed to verify ...')`), modelled `.error ()`.
`.ok none` means no node matches and the loop for this theorem pair stops. -/
def refactorStep (env : Env) (newProof current : ProofNode) :
    Except Unit (Option ProofNode) :=
  match rewriteFirstMatch env.labels newProof current with
  | .error u => .error u
  | .ok none => .ok none
  | .ok (some newTree) =>
    match verify_custom env false newTree.expr (summarize newTree) "" with
    | VRes.ok _ => .ok (some newTree)
    | _ => .error ()

/-! ## `check_proof_is_tree` (theorem_verification.py) -/

/-- Python's `round` on a rational: round half to even.  The fractional
part `q - ⌊q⌋ = (q.num - ⌊q⌋ * q.den) / q.den` is compared with `1/2` by
cross-multiplication. -/
def pyRound (q : ℚ) : ℤ :=
  let f := q.floor
  let r := q.num - f * (q.den : ℤ)
  if 2 * r < (q.den : ℤ) then f
  else if (q.den : ℤ) < 2 * r then f + 1
  else if f % 2 = 0 then f else f + 1

/-- One exported proof datapoint `[name, source, target, nodes]` (as built
by `export_single_new` plus the prepended name); each node record is
`(tokenized expr, tokenized label, subst flag)`. -/
structure ProofRaw where
  name : String
  source : List Nat
  target : List Nat
  nodes : List (List Nat × List Nat × Nat)

/-- The keys of the adjacency dict: indices whose rounded prediction is 1,
in insertion (index) order. -/
def coloredIdx (preds : List ℚ) : List Nat :=
  (preds.enum.filter fun ip => pyRound ip.2 == 1).map Prod.fst

/-- The edges retained by the loop: pairs `(new_source[i], new_target[i])`
with both endpoints colored, where `new_source = proof_raw[2]` (the export's
TARGET column) and `new_target = proof_raw[1]` (the export's SOURCE column)
— the source swaps the two. -/
def inducedEdges (raw : ProofRaw) (preds : List ℚ) : List (Nat × Nat) :=
  (raw.target.zip raw.source).filter fun st =>
    st.1 ∈ coloredIdx preds && st.2 ∈ coloredIdx preds

/-- `nodes_with_incoming_edges`: the concatenation of the per-key adjacency
lists in key order. -/
def incomingList (raw : ProofRaw) (preds : List ℚ) : List Nat :=
  ((coloredIdx preds).map fun k =>
    ((inducedEdges raw preds).filter fun st2 => st2.1 == k).map Prod.snd).flatten

/-- `check_proof_is_tree(proof_raw, predictions)`.  Asserts and the
out-of-range access of `new_target[i]` are modelled as `none`; the
`len(set(nodes_with_incoming_edges)) == len(nodes_with_incoming_edges)`
assert is the comparison with the deduplicated length. -/
def check_proof_is_tree (raw : ProofRaw) (preds : List ℚ) : Option Nat :=
  if raw.nodes.length ≠ preds.length then none
  else
    let colored := coloredIdx preds
    if colored.length ≤ 1 then some 0
    else if raw.source.length < raw.target.length then none
    else
      let incoming := incomingList raw preds
      if incoming.dedup.length ≠ incoming.length then none
      else if (colored.length : ℤ) - (incoming.length : ℤ) ≠ 1 then some 0
      else some 1

/-! ## Concrete instances (grammars, trees and inputs used by the witnesses
and counterexamples below) -/

/-- A one-frame grammar: constant `wff`, variable `x`, floating hypothesis
`hx $f wff x`. -/
def frameW : Frame :=
  { c := ["wff"], v := ["x"], d := [], f := [("x", "wff")],
    f_labels := [("x", "hx")], e := [], e_labels := [] }

def labelsW : String → Option (Kind × LabelData) := fun s =>
  if s = "hx" then some (.f, .hyp ["wff", "x"]) else none

def envW : Env := ⟨[frameW], labelsW⟩

def nodeW : ProofNode := .mk "hx" .f ["wff", "x"] [] [] false ""

/-- Grammar for the `"ABZ"` decompression scenario: two mandatory floating
hypotheses `h0 $f wff p`, `h1 $f wff q`, no essential hypotheses, no local
labels. -/
def frameC3 : Frame :=
  { c := ["wff"], v := ["p", "q"], d := [], f := [("p", "wff"), ("q", "wff")],
    f_labels := [("p", "h0"), ("q", "h1")], e := [], e_labels := [] }

def labelsC3 : String → Option (Kind × LabelData) := fun s =>
  if s = "h0" then some (.f, .hyp ["wff", "p"])
  else if s = "h1" then some (.f, .hyp ["wff", "q"])
  else none

def envC3 : Env := ⟨[frameC3], labelsC3⟩

def statC3 : List String := ["wff", "p", "q"]

/-- Two nested frames, each declaring one floating hypothesis: outer
`hx $f wff x`, inner `hy $f wff y`. -/
def frameC4outer : Frame :=
  { c := ["wff"], v := ["x"], d := [], f := [("x", "wff")],
    f_labels := [("x", "hx")], e := [], e_labels := [] }

def frameC4inner : Frame :=
  { c := [], v := ["y"], d := [], f := [("y", "wff")],
    f_labels := [("y", "hy")], e := [], e_labels := [] }

def fsC4 : List Frame := [frameC4outer, frameC4inner]

def statC4 : List String := ["wff", "x", "y"]

/-- An outer frame declaring the constant `x`, and a fresh empty inner
frame. -/
def fsC5 : List Frame := [{ Frame.empty with c := ["x"] }, Frame.empty]

/-- A two-node tree and a parallel tree whose leaf is marked substituted. -/
def leafFalseC7 : ProofNode := .mk "h" .f ["wff", "x"] [] [] false ""

def leafTrueC7 : ProofNode := .mk "h" .f ["wff", "x"] [] [] true ""

def sC7 : ProofNode := .mk "ax" .a ["wff", "x"] [leafFalseC7] [] false ""

def oC7 : ProofNode := .mk "ax" .a ["wff", "x"] [leafTrueC7] [] false ""

/-- An exported graph with two nodes, NO edges, and both nodes predicted
substituted: two isolated colored nodes. -/
def rawC9 : ProofRaw := ⟨"t", [], [], [([0], [1], 1), ([2], [3], 1)]⟩

def predsC9 : List ℚ := [1, 1]

/-- Grammar with an axiom `axd` carrying a declared disjointness pair
`(x, y)` over its two mandatory variables. -/
def frameC10 : Frame :=
  { c := ["wff"], v := ["x", "y"], d := [("x", "y")],
    f := [("x", "wff"), ("y", "wff")],
    f_labels := [("x", "wx"), ("y", "wy")], e := [], e_labels := [] }

def aC10 : Assertion :=
  ⟨[("x", "y")], [("wff", "x"), ("wff", "y")], [], ["wff", "x", "y"]⟩

def labelsC10 : String → Option (Kind × LabelData) := fun s =>
  if s = "wx" then some (.f, .hyp ["wff", "x"])
  else if s = "wy" then some (.f, .hyp ["wff", "y"])
  else if s = "axd" then some (.a, .assertion aC10)
  else none

def envC10 : Env := ⟨[frameC10], labelsC10⟩

/-- The substitution produced by binding `axd`'s two mandatory variables
against the stack `[wx-leaf, wy-leaf]`. -/
def σC10 : Subst :=
  substUpdate (substUpdate emptySubst "x" ["x"]) "y" ["y"]

/-- Grammar for the refactoring scenario: unary `wn` and binary `wi`
formula-building axioms over variables `x`, `y`, and a stored theorem
`thmT` (`$p`, result `wff I N x y`, derivation `wi (wn x) y`) that carries a
declared disjointness pair `(x, y)`. -/
def frameC8 : Frame :=
  { c := ["wff"], v := ["x", "y"], d := [("x", "y")],
    f := [("x", "wff"), ("y", "wff")],
    f_labels := [("x", "wx"), ("y", "wy")], e := [], e_labels := [] }

def labelsC8 : String → Option (Kind × LabelData) := fun s =>
  if s = "wx" then some (.f, .hyp ["wff", "x"])
  else if s = "wy" then some (.f, .hyp ["wff", "y"])
  else if s = "wn" then some (.a, .assertion ⟨[], [("wff", "x")], [], ["wff", "N", "x"]⟩)
  else if s = "wi" then some (.a, .assertion ⟨[], [("wff", "x"), ("wff", "y")], [], ["wff", "I", "x", "y"]⟩)
  else if s = "thmT" then
    some (.p, .assertion ⟨[("x", "y")], [("wff", "x"), ("wff", "y")], [], ["wff", "I", "N", "x", "y"]⟩)
  else none

def envC8 : Env := ⟨[frameC8], labelsC8⟩

/-- The stored derivation tree of the new theorem `thmT`. -/
def nTx : ProofNode := .mk "wx" .f ["wff", "x"] [] [] false ""

def nTy : ProofNode := .mk "wy" .f ["wff", "y"] [] [] false ""

def nTn : ProofNode := .mk "wn" .a ["wff", "N", "x"] [nTx] [] false ""

def tC8 : ProofNode := .mk "wi" .a ["wff", "I", "N", "x", "y"] [nTn, nTy] [] false "thmT"

/-- An original proof whose whole tree is an instance of `thmT`'s
derivation (with the identity substitution). -/
def origC8 : ProofNode := .mk "wi" .a ["wff", "I", "N", "x", "y"] [nTn, nTy] [] false "orig"

/-- The rewritten tree produced by `refactor_proof_single`. -/
def resC8 : ProofNode := .mk "thmT" .p ["wff", "I", "N", "x", "y"] [nTx, nTy] [] false "orig"

/-- The nodes pushed for `wx` and `wy` during verification against
`envC10`. -/
def nwxC10 : ProofNode := .mk "wx" .f ["wff", "x"] [] [] false ""

def nwyC10 : ProofNode := .mk "wy" .f ["wff", "y"] [] [] false ""

/-- The OR-propagation property of one node: a node with a substituted
immediate child is itself substituted and so are all its immediate
children. -/
def goodNode (n : ProofNode) : Prop :=
  (n.children.any ProofNode.subst) = true →
    n.subst = true ∧ ∀ c ∈ n.children, c.subst = true

/-- The colored form of a node in CHILD position under the leaf-coloring
loop (`colorEFLeavesList` maps every child through this). -/
def colorEFChild (n : ProofNode) : ProofNode :=
  if n.mand_vars.isEmpty && n.hps.isEmpty then
    (if n.typ = Kind.e ∨ n.typ = Kind.f then setSubstTrue n else n)
  else colorEFLeaves n

/-- The indices contributed to bucket `j` by `mkBuckets` (the entries
appended for the pairs whose leaf expression selects mandatory variable
`j`). -/
def bucketContrib (matching_mand_vars : List (String × String)) (j : Nat)
    (pairs : List (ProofNode × Nat)) : List Nat :=
  pairs.filterMap fun p =>
    match p.1.expr with
    | [k2, v2] =>
      match matching_mand_vars.findIdx? (· == (k2, v2)) with
      | some j2 => if j2 = j then some p.2 else none
      | none => none
    | _ => none

/-- Total summarized length of a list of subtrees. -/
def sumLen (l : List ProofNode) : Nat :=
  (l.map fun c => (summarize c).length).sum

mutual

/-- The number of positions of a template subtree (in child position) that
survive as labels after the subtree is matched: childless `$e`/`$f`-typed
nodes are replaced by the matched subproof (contributing 0), every other
node contributes its own label. -/
def inertIn : ProofNode → Nat
  | .mk _ t _ mvs hs _ _ =>
    if mvs.isEmpty && hs.isEmpty then (if t = Kind.e ∨ t = Kind.f then 0 else 1)
    else 1 + (inertInList mvs + inertInList hs)

def inertInList : List ProofNode → Nat
  | [] => 0
  | n :: ns => inertIn n + inertInList ns

end

/-- Every node of the tree carries the kind its label has in the label
table (true for all trees built by the verifier, which copies the kind from
the table). -/
def typsConsistent (lbls : String → Option (Kind × LabelData)) (m : ProofNode) : Prop :=
  ∀ n ∈ allNodes m, ∃ d, lbls n.label = some (n.typ, d)

/-- All `subst` flags of the tree are clear. -/
def flagsClear (n : ProofNode) : Prop :=
  ∀ m ∈ allNodes n, m.subst = false

/-- The structural matching relation established by a successful
`match_theorem_current_node`: a template node whose label is a hypothesis
matches anything; a template node with an `$a`/`$p` label matches a node
with the same label and pairwise-matching children. -/
inductive MatchRel (lbls : String → Option (Kind × LabelData)) : ProofNode → ProofNode → Prop where
  | hyp : ∀ (o : ProofNode) (ml : String) (mt : Kind) (me : List String) (ms : Bool)
      (mnm : String) (k : Kind) (d : LabelData),
      lbls ml = some (k, d) → (k = Kind.e ∨ k = Kind.f) →
      MatchRel lbls o (.mk ml mt me [] [] ms mnm)
  | assert : ∀ (l : String) (t1 t2 : Kind) (e1 e2 : List String)
      (mvs1 hs1 mvs2 hs2 : List ProofNode) (s1 s2 : Bool) (nm1 nm2 : String)
      (k : Kind) (d : LabelData),
      lbls l = some (k, d) → (k = Kind.a ∨ k = Kind.p) →
      mvs1.length = mvs2.length → hs1.length = hs2.length →
      (∀ p ∈ mvs1.zip mvs2, MatchRel lbls p.1 p.2) →
      (∀ p ∈ hs1.zip hs2, MatchRel lbls p.1 p.2) →
      MatchRel lbls (.mk l t1 e1 mvs1 hs1 s1 nm1) (.mk l t2 e2 mvs2 hs2 s2 nm2)

/-! # Theorems -/

/-! ## Generic helper lemmas -/

theorem summarizeList_append (a b : List ProofNode) :
    summarizeList (a ++ b) = summarizeList a ++ summarizeList b := by
  induction a with
  | nil => simp [summarizeList]
  | cons x xs ih => simp [summarizeList, ih]

theorem summarize_setName (n : ProofNode) (nm : String) :
    summarize (n.setName nm) = summarize n := by
  cases n
  simp [ProofNode.setName, summarize]

theorem expr_setName (n : ProofNode) (nm : String) :
    (n.setName nm).expr = n.expr := by
  cases n
  rfl

/-- `decompressIfCompressed` is the identity on label lists not starting
with `(` (shared by several claims below). -/
theorem decompressIfCompressed_noop (env : Env) (stat proof0 : List String)
    (h : proof0.head? ≠ some "(") :
    decompressIfCompressed env stat proof0 = some proof0 := by
  unfold decompressIfCompressed
  rw [if_neg h]

/-! ## C5 -/

/-- C5 counterexample: the token `x` is declared as a constant in the outer
frame of `fsC5`, yet both `add_c fsC5 "x"` and `add_v fsC5 "x"` succeed —
the claim that redeclaration anywhere in the active chain fails is false. -/
theorem c5_counterexample :
    lookup_c fsC5 "x" = true ∧ (add_c fsC5 "x").isSome = true ∧
      (add_v fsC5 "x").isSome = true := by
  decide

/-- C5 (amended): `add_c tok` fails exactly when `tok` is already a constant
or a variable of the INNERMOST frame, and `add_v tok` fails exactly when it
is already a variable or a constant of the innermost frame; outer frames are
not consulted. -/
theorem c5_add_innermost_only (fs : List Frame) (fr : Frame) (tok : String)
    (h : fs.getLast? = some fr) :
    (add_c fs tok = none ↔ tok ∈ fr.c ∨ tok ∈ fr.v) ∧
      (add_v fs tok = none ↔ tok ∈ fr.v ∨ tok ∈ fr.c) := by
  unfold add_c add_v updateLast
  rw [h]
  constructor
  · by_cases h1 : tok ∈ fr.c
    · simp [h1]
    · by_cases h2 : tok ∈ fr.v <;> simp [h1, h2]
  · by_cases h1 : tok ∈ fr.v
    · simp [h1]
    · by_cases h2 : tok ∈ fr.c <;> simp [h1, h2]

theorem c5_witness :
    fsC5.getLast? = some Frame.empty ∧
      ((add_c fsC5 "q" = none ↔ "q" ∈ Frame.empty.c ∨ "q" ∈ Frame.empty.v) ∧
        (add_v fsC5 "q" = none ↔ "q" ∈ Frame.empty.v ∨ "q" ∈ Frame.empty.c)) :=
  ⟨rfl, c5_add_innermost_only fsC5 Frame.empty "q" rfl⟩

/-! ## C6 -/

/-- C6: when the first proof token is not `(`, the decompression step of
`verify_custom` returns the label list unchanged — the verification
pipeline processes exactly the given labels. -/
theorem c6_decompress_identity (env : Env) (stat proof0 : List String)
    (h : proof0.head? ≠ some "(") :
    decompressIfCompressed env stat proof0 = some proof0 :=
  decompressIfCompressed_noop env stat proof0 h

theorem c6_witness :
    (["hx"] : List String).head? ≠ some "(" ∧
      decompressIfCompressed envW ["wff", "x"] ["hx"] = some ["hx"] :=
  ⟨by decide, c6_decompress_identity envW ["wff", "x"] ["hx"] (by decide)⟩

/-! ## C3 -/

/-- C3 counterexample: decompressing `"ABZ"` with the two mandatory
hypothesis labels `h0`, `h1` does NOT yield `[h0, h1, h1]` as claimed. -/
theorem c3_counterexample :
    decompress_proof envC3 statC3 ["(", ")", "ABZ"] ≠ some ["h0", "h1", "h1"] := by
  decide

/-- C3 (amended): the decompression yields `[h0, h1]` — the `Z` records the
most recent single-label subproof on the internal subproof stack for later
back-references and appends nothing to the output. -/
theorem c3_abz_decompression :
    decompress_proof envC3 statC3 ["(", ")", "ABZ"] = some ["h0", "h1"] := by
  decide

/-! ## C4 -/

theorem innerHasF_append (xs ys : List Frame) (v : String) :
    innerHasF (xs ++ ys) v = (innerHasF xs v || innerHasF ys v) := by
  simp [innerHasF]

theorem nodup_erase_eq_filter (a : String) (mv : List String) (hmv : mv.Nodup) :
    mv.erase a = mv.filter fun v => !(a = v : Bool) := by
  induction mv with
  | nil => rfl
  | cons x xs ih =>
    rw [List.nodup_cons] at hmv
    by_cases hx : x = a
    · subst hx
      rw [List.erase_cons_head]
      have : ∀ v ∈ xs, (!(x = v : Bool)) = true := by
        intro v hv
        have : x ≠ v := fun he => hmv.1 (he ▸ hv)
        simp [this]
      simp only [List.filter_cons]
      simp only [decide_eq_true_eq] at *
      rw [(List.filter_eq_self).mpr this]
      simp
    · rw [List.erase_cons_tail]
      · rw [ih hmv.2]
        simp only [List.filter_cons]
        have : (!(a = x : Bool)) = true := by simp [Ne.symm hx]
        simp [this]
      · simp [hx]

/-- Evaluation of the floating-hypothesis selection fold over the reversed
declaration list of a single frame: the selected pairs (declaration order,
swapped) are prepended, and the selected variables are removed from the
remaining mandatory-variable list. -/
theorem fHypStep_foldl (r : List (String × String)) :
    ∀ (dq : List (String × String)) (mv : List String),
      (r.map Prod.fst).Nodup → mv.Nodup →
      r.foldl fHypStep (dq, mv) =
        ((r.reverse.filter fun vk => decide (vk.1 ∈ mv)).map (fun vk => (vk.2, vk.1)) ++ dq,
         mv.filter fun v => !(r.any fun vk => vk.1 = v)) := by
  induction r with
  | nil => intro dq mv _ _; simp
  | cons vk rest ih =>
    intro dq mv hr hmv
    have hvk : vk.1 ∉ rest.map Prod.fst := by
      have := hr
      simp only [List.map_cons, List.nodup_cons] at this
      exact this.1
    have hrest : (rest.map Prod.fst).Nodup := by
      simp only [List.map_cons, List.nodup_cons] at hr
      exact hr.2
    by_cases hv : vk.1 ∈ mv
    · have step : fHypStep (dq, mv) vk = ((vk.2, vk.1) :: dq, mv.erase vk.1) := by
        simp [fHypStep, hv]
      rw [List.foldl_cons, step,
        ih ((vk.2, vk.1) :: dq) (mv.erase vk.1) hrest (hmv.erase vk.1)]
      simp only [Prod.mk.injEq]
      constructor
      · -- first components
        have hfil : rest.reverse.filter (fun u => decide (u.1 ∈ mv.erase vk.1)) =
            rest.reverse.filter (fun u => decide (u.1 ∈ mv)) := by
          apply List.filter_congr
          intro u hu
          have hne : u.1 ≠ vk.1 := by
            intro he
            apply hvk
            rw [← he]
            exact List.mem_map_of_mem Prod.fst (List.mem_reverse.mp hu)
          simp [List.mem_erase_of_ne hne]
        simp only [List.reverse_cons, List.filter_append, List.map_append, hfil]
        simp [hv]
      · -- second components
        rw [nodup_erase_eq_filter vk.1 mv hmv, List.filter_filter]
        apply List.filter_congr
        intro v _
        simp [List.any_cons, Bool.not_or, Bool.and_comm]
    · have step : fHypStep (dq, mv) vk = (dq, mv) := by
        simp [fHypStep, hv]
      rw [List.foldl_cons, step, ih dq mv hrest hmv]
      simp only [Prod.mk.injEq]
      constructor
      · simp only [List.reverse_cons, List.filter_append, List.map_append]
        simp [hv]
      · apply List.filter_congr
        intro v hvm
        have : ¬ vk.1 = v := by
          intro he
          exact hv (he ▸ hvm)
        simp [this]

/-- Splitting the outermost frame off the spec-side ordering: appending a
more-inner frame `fr` both restricts the mandatory variables available to
the outer frames and appends `fr`'s own selections. -/
theorem fHypsOuterFirst_append_singleton (xs : List Frame) (fr : Frame) (mv : List String) :
    fHypsOuterFirst (xs ++ [fr]) mv =
      fHypsOuterFirst xs (mv.filter fun v => !(innerHasF [fr] v)) ++
        ((fr.f.filter fun vk => decide (vk.1 ∈ mv)).map fun vk => (vk.2, vk.1)) := by
  induction xs with
  | nil =>
    simp only [List.nil_append, fHypsOuterFirst]
    have : (fr.f.filter fun vk => decide (vk.1 ∈ mv) && !(innerHasF [] vk.1)) =
        fr.f.filter fun vk => decide (vk.1 ∈ mv) := by
      apply List.filter_congr
      intro vk _
      simp [innerHasF]
    rw [this]
    simp
  | cons x xs ih =>
    simp only [List.cons_append, fHypsOuterFirst, ih, List.append_assoc]
    congr 2
    apply List.filter_congr
    intro vk _
    simp only [List.append_eq, innerHasF_append]
    by_cases h1 : vk.1 ∈ mv <;> by_cases h2 : innerHasF xs vk.1 = true <;>
      by_cases h3 : innerHasF [fr] vk.1 = true <;>
      simp [h1, h2, h3, List.mem_filter]

/-- Evaluation of the full selection fold over the innermost-first frame
list. -/
theorem fHyps_foldl_frames (rs : List Frame) :
    ∀ (dq : List (String × String)) (mv : List String),
      mv.Nodup → (∀ fr ∈ rs, (fr.f.map Prod.fst).Nodup) →
      (rs.foldl (fun acc fr => (fr.f.reverse).foldl fHypStep acc) (dq, mv)).1 =
        fHypsOuterFirst rs.reverse mv ++ dq := by
  induction rs with
  | nil => intro dq mv _ _; simp [fHypsOuterFirst]
  | cons fr rest ih =>
    intro dq mv hmv hfs
    rw [List.foldl_cons]
    have hfr : ((fr.f.reverse).map Prod.fst).Nodup := by
      rw [List.map_reverse, List.nodup_reverse]
      exact hfs fr (List.mem_cons_self fr rest)
    rw [fHypStep_foldl fr.f.reverse dq mv hfr hmv]
    have hmv2 : (mv.filter fun v => !(fr.f.reverse.any fun vk => vk.1 = v)).Nodup :=
      hmv.filter _
    rw [ih _ _ hmv2 (fun fr2 h2 => hfs fr2 (List.mem_cons_of_mem fr h2))]
    rw [List.reverse_cons, fHypsOuterFirst_append_singleton]
    simp only [List.reverse_reverse, List.append_assoc]
    congr 2
    apply List.filter_congr
    intro v _
    simp [innerHasF, List.any_reverse]

/-- C4 counterexample: for the two-frame stack `fsC4` (outer `hx $f wff x`,
inner `hy $f wff y`, both variables mandatory), `make_assertion` returns the
mandatory floating hypotheses OUTERMOST frame first, not innermost first as
the claim states. -/
theorem c4_counterexample :
    (make_assertion fsC4 statC4).f_hyps = [("wff", "x"), ("wff", "y")] ∧
      (make_assertion fsC4 statC4).f_hyps ≠ [("wff", "y"), ("wff", "x")] := by
  constructor <;> decide

/-- C4 (amended): the mandatory floating hypotheses returned by
`make_assertion` are exactly the `(typecode, variable)` pairs of the
mandatory variables (those occurring in the visible essential hypotheses or
the result statement and declared as variables), each taken from its
innermost floating declaration, ordered OUTERMOST frame first and, within a
frame, in declaration order (assuming, as `add_f` guarantees, that no frame
declares two floating hypotheses for the same variable). -/
theorem c4_f_hyps_order (fs : List Frame) (stat : List String)
    (hf : ∀ fr ∈ fs, (fr.f.map Prod.fst).Nodup) :
    (make_assertion fs stat).f_hyps = fHypsOuterFirst fs (mandVarsOf fs stat) := by
  unfold make_assertion
  simp only []
  rw [fHyps_foldl_frames fs.reverse [] (mandVarsOf fs stat) (List.nodup_dedup _)
    (fun fr h => hf fr (List.mem_reverse.mp h))]
  simp

theorem c4_witness :
    (∀ fr ∈ fsC4, (fr.f.map Prod.fst).Nodup) ∧
      (make_assertion fsC4 statC4).f_hyps = fHypsOuterFirst fsC4 (mandVarsOf fsC4 statC4) :=
  ⟨by decide, c4_f_hyps_order fsC4 statC4 (by decide)⟩

/-! ## The stack-summary invariant (C1, C2) -/

/-- Summary of a singleton stack holding a freshly built node. -/
theorem summarizeList_single (lbl : String) (k : Kind) (ex : List String)
    (mv hyp : List ProofNode) (s : Bool) (nm : String) :
    summarizeList [ProofNode.mk lbl k ex mv hyp s nm] =
      summarizeList mv ++ summarizeList hyp ++ [lbl] := by
  simp [summarizeList, summarize]

/-- Pushing a node built from a take/drop split of a block appends the
block's summary and the label. -/
theorem summarizeList_push_split (T D : List ProofNode) (flen : Nat) (lbl : String)
    (k : Kind) (ex : List String) (s : Bool) (nm : String) :
    summarizeList (T ++ [ProofNode.mk lbl k ex (D.take flen) (D.drop flen) s nm]) =
      summarizeList (T ++ D) ++ [lbl] := by
  have hD : summarizeList D = summarizeList (D.take flen) ++ summarizeList (D.drop flen) := by
    conv_lhs => rw [← List.take_append_drop flen D]
    rw [summarizeList_append]
  rw [summarizeList_append, summarizeList_append, summarizeList_single, hD]
  simp [List.append_assoc]

/-- A successful `$a`/`$p` step replaces a block of operands by one node
whose summary is the block's summaries followed by the label. -/
theorem vStepAssert_summary (env : Env) (strict : Bool) (name : String)
    (stack : List ProofNode) (lbl : String) (k : Kind) (a : Assertion)
    (st2 : List ProofNode) (h : vStepAssert env strict name stack lbl k a = .ok st2) :
    summarizeList st2 = summarizeList stack ++ [lbl] := by
  unfold vStepAssert at h
  by_cases hlen : stack.length < a.f_hyps.length + a.e_hyps.length
  · rw [if_pos hlen] at h
    cases h
  rw [if_neg hlen] at h
  simp only [] at h
  cases hb : bindMand (if strict then VErr.raised else VErr.probe)
      (a.f_hyps.zip ((stack.drop (stack.length - (a.f_hyps.length + a.e_hyps.length))).take
        a.f_hyps.length)) emptySubst with
  | error e => rw [hb] at h; cases h
  | ok σ =>
    rw [hb] at h
    dsimp only at h
    cases hd : checkDisjointV env strict name σ a.dvs with
    | error e => rw [hd] at h; cases h
    | ok u =>
      rw [hd] at h
      dsimp only at h
      cases hh : checkHyps (if strict then VErr.raised else VErr.probe) σ
          (a.e_hyps.zip ((stack.drop (stack.length - (a.f_hyps.length + a.e_hyps.length))).drop
            a.f_hyps.length)) with
      | error e => rw [hh] at h; cases h
      | ok u2 =>
        rw [hh] at h
        dsimp only at h
        cases h
        rw [summarizeList_push_split, List.take_append_drop]

/-- A successful `verify_custom` step appends exactly its label to the
concatenated stack summary. -/
theorem vStep_summary (env : Env) (strict : Bool) (name : String)
    (stack : List ProofNode) (lbl : String) (st2 : List ProofNode)
    (h : vStep env strict name stack lbl = .ok st2) :
    summarizeList st2 = summarizeList stack ++ [lbl] := by
  unfold vStep at h
  cases hl : env.labels lbl with
  | none => rw [hl] at h; cases h
  | some kd =>
    rw [hl] at h
    obtain ⟨k, d⟩ := kd
    cases k <;> cases d
    · cases h
      rw [summarizeList_append, summarizeList_single]
      simp [summarizeList]
    · cases h
    · cases h
      rw [summarizeList_append, summarizeList_single]
      simp [summarizeList]
    · cases h
    · cases h
    · exact vStepAssert_summary env strict name stack lbl .a _ st2 h
    · cases h
    · exact vStepAssert_summary env strict name stack lbl .p _ st2 h

theorem vSteps_cons (env : Env) (strict : Bool) (name : String) (lbl : String)
    (rest : List String) (stack : List ProofNode) :
    vSteps env strict name (lbl :: rest) stack =
      match vStep env strict name stack lbl with
      | .error e => .error e
      | .ok stack2 => vSteps env strict name rest stack2 := rfl

/-- The loop invariant: a successful run appends exactly the processed
labels to the concatenated stack summary. -/
theorem vSteps_summary (env : Env) (strict : Bool) (name : String) :
    ∀ (proof : List String) (stack S : List ProofNode),
      vSteps env strict name proof stack = .ok S →
      summarizeList S = summarizeList stack ++ proof := by
  intro proof
  induction proof with
  | nil =>
    intro stack S h
    unfold vSteps at h
    cases h
    simp
  | cons lbl rest ih =>
    intro stack S h
    rw [vSteps_cons] at h
    cases hs : vStep env strict name stack lbl with
    | error e => rw [hs] at h; cases h
    | ok stack2 =>
      rw [hs] at h
      dsimp only at h
      rw [ih stack2 S h, vStep_summary env strict name stack lbl stack2 hs]
      simp

theorem vSteps_append (env : Env) (strict : Bool) (name : String) :
    ∀ (as bs : List String) (stack S : List ProofNode),
      vSteps env strict name as stack = .ok S →
      vSteps env strict name (as ++ bs) stack = vSteps env strict name bs S := by
  intro as
  induction as with
  | nil =>
    intro bs stack S h
    unfold vSteps at h
    cases h
    rfl
  | cons lbl rest ih =>
    intro bs stack S h
    rw [vSteps_cons] at h
    rw [List.cons_append, vSteps_cons]
    cases hs : vStep env strict name stack lbl with
    | error e => rw [hs] at h; cases h
    | ok stack2 =>
      rw [hs] at h
      dsimp only at h
      dsimp only
      exact ih bs stack2 S h

/-! ## `propagate` agrees with the strict verifier loop -/

theorem checkDisjointP_eq (env : Env) (σ : Subst) :
    ∀ l : List (String × String),
      checkDisjointP env σ l = checkDisjointV env true "" σ l := by
  intro l
  induction l with
  | nil => rfl
  | cons xy rest ih =>
    obtain ⟨x, y⟩ := xy
    unfold checkDisjointP checkDisjointV
    cases hx : σ x <;> cases hy : σ y <;> simp only []
    case some.some ex ey =>
      rw [ih]
      have : checkPairsStrict env.fs "" (find_vars env.fs ex) (find_vars env.fs ey) =
          ((find_vars env.fs ex).any fun a => (find_vars env.fs ey).any fun b => a = b) := by
        unfold checkPairsStrict
        simp
      rw [this]
      simp

theorem pStepAssert_eq (env : Env) (stack : List ProofNode) (lbl : String)
    (k : Kind) (a : Assertion) :
    pStepAssert env stack lbl k a = vStepAssert env true "" stack lbl k a := by
  unfold pStepAssert vStepAssert
  simp only [checkDisjointP_eq]
  rfl

theorem pStep_eq (env : Env) (stack : List ProofNode) (lbl : String) :
    pStep env stack lbl = vStep env true "" stack lbl := by
  unfold pStep vStep
  cases env.labels lbl with
  | none => rfl
  | some kd =>
    obtain ⟨k, d⟩ := kd
    cases k <;> cases d <;> simp [pStepAssert_eq]

theorem pSteps_eq (env : Env) :
    ∀ (proof : List String) (stack : List ProofNode),
      pSteps env proof stack = vSteps env true "" proof stack := by
  intro proof
  induction proof with
  | nil => intro stack; rfl
  | cons lbl rest ih =>
    intro stack
    unfold pSteps vSteps
    rw [pStep_eq]
    cases vStep env true "" stack lbl with
    | error e => rfl
    | ok stack2 => exact ih stack2

/-! ## C1 -/

/-- C1: round-trip — whenever the propagator's label loop consumes the whole
label sequence leaving a single node (i.e. the propagator accepts the
proof), `summarize_proof` of the returned tree reproduces exactly the input
label sequence, and `propagate` succeeds (its own trailing assert can never
fire). -/
theorem c1_propagate_roundtrip (env : Env) (proof : List String) (name : String)
    (n : ProofNode) (h : pSteps env proof [] = .ok [n]) :
    summarize (n.setName name) = proof ∧
      propagate env proof name = some (n.setName name) := by
  have hsum : summarize n = proof := by
    have := vSteps_summary env true "" proof [] [n] (by rw [← pSteps_eq]; exact h)
    simpa [summarizeList] using this
  have hsum2 : summarize (n.setName name) = proof := by
    rw [summarize_setName]; exact hsum
  refine ⟨hsum2, ?_⟩
  unfold propagate
  rw [h]
  simp [hsum2]

theorem c1_witness :
    pSteps envW ["hx"] [] = .ok [nodeW] ∧
      summarize (nodeW.setName "t") = ["hx"] ∧
      propagate envW ["hx"] "t" = some (nodeW.setName "t") :=
  ⟨rfl, (c1_propagate_roundtrip envW ["hx"] "t" nodeW rfl).1,
    (c1_propagate_roundtrip envW ["hx"] "t" nodeW rfl).2⟩

/-! ## C2 -/

/-- C2: termination conditions of `verify_custom`.  After the label loop
consumes all labels of an (explicit, nonempty) proof leaving stack `S`: if
`S` is not a singleton, strict mode raises and probe mode returns
`(False, None)`; if the single remaining node's `expr` differs from the
caller-supplied `stat`, strict mode raises and probe mode returns
`(False, node)`; otherwise the call succeeds. -/
theorem c2_verify_termination (env : Env) (strict : Bool) (stat : List String)
    (proof : List String) (name : String) (S : List ProofNode)
    (hne : proof ≠ []) (hhead : proof.head? ≠ some "(")
    (hloop : vSteps env strict name proof [] = .ok S) :
    (S.length ≠ 1 →
      verify_custom env strict stat proof name =
        if strict then VRes.raised else VRes.failNone) ∧
    (∀ n, S = [n] → n.expr ≠ stat →
      verify_custom env strict stat proof name =
        if strict then VRes.raised else VRes.failNode (n.setName name)) ∧
    (∀ n, S = [n] → n.expr = stat →
      verify_custom env strict stat proof name = VRes.ok (n.setName name)) := by
  have hSsum : summarizeList S = proof := by
    simpa using vSteps_summary env strict name proof [] S hloop
  have hSne : S ≠ [] := by
    intro hS
    rw [hS] at hSsum
    exact hne (by simpa [summarizeList] using hSsum.symm)
  obtain ⟨t0, ts, rfl⟩ := List.exists_cons_of_ne_nil hne
  have hvc : verify_custom env strict stat (t0 :: ts) name =
      (match vSteps env strict name (t0 :: ts) [] with
      | .error .raised => VRes.raised
      | .error .probe => VRes.failNone
      | .error .crash => VRes.crash
      | .ok [] => VRes.crash
      | .ok (n :: rest) =>
        let n1 := n.setName name
        if rest.isEmpty then
          if n1.expr = stat then
            if name.length > 0 ∧ summarize n1 ≠ (t0 :: ts) then VRes.crash
            else VRes.ok n1
          else if strict then VRes.raised else VRes.failNode n1
        else if strict then VRes.raised else VRes.failNone) := by
    unfold verify_custom
    rw [decompressIfCompressed_noop env stat _ hhead]
  rw [hloop] at hvc
  obtain ⟨n, rest, rfl⟩ := List.exists_cons_of_ne_nil hSne
  dsimp only at hvc
  refine ⟨?_, ?_, ?_⟩
  · intro hlen1
    have hrest : rest.isEmpty = false := by
      cases rest with
      | nil => exact absurd (by simp) hlen1
      | cons a b => rfl
    rw [hvc, hrest]
    simp
  · intro m hm hms
    injection hm with h1 h2
    subst h2
    subst h1
    rw [hvc]
    simp [expr_setName, hms]
  · intro m hm hms
    injection hm with h1 h2
    subst h2
    subst h1
    have hs : summarize n = t0 :: ts := by
      simpa [summarizeList] using hSsum
    rw [hvc]
    simp [expr_setName, hms, summarize_setName, hs]

theorem c2_witness :
    (vSteps envW true "t" ["hx"] [] = .ok [nodeW]) ∧
      verify_custom envW true ["wff", "x"] ["hx"] "t" = VRes.ok (nodeW.setName "t") :=
  ⟨rfl,
    (c2_verify_termination envW true ["wff", "x"] ["hx"] "t" [nodeW]
      (by decide) (by decide) rfl).2.2 nodeW rfl rfl⟩

/-! ## C10 -/

/-- Reduction of `verify_custom` on an explicit (non-compressed) nonempty
label list. -/
theorem verify_custom_explicit (env : Env) (strict : Bool) (stat proof : List String)
    (name : String) (hne : proof ≠ []) (hhead : proof.head? ≠ some "(") :
    verify_custom env strict stat proof name =
      (match vSteps env strict name proof [] with
      | .error .raised => VRes.raised
      | .error .probe => VRes.failNone
      | .error .crash => VRes.crash
      | .ok [] => VRes.crash
      | .ok (n :: rest) =>
        let n1 := n.setName name
        if rest.isEmpty then
          if n1.expr = stat then
            if name.length > 0 ∧ summarize n1 ≠ proof then VRes.crash
            else VRes.ok n1
          else if strict then VRes.raised else VRes.failNode n1
        else if strict then VRes.raised else VRes.failNone) := by
  obtain ⟨t0, ts, rfl⟩ := List.exists_cons_of_ne_nil hne
  unfold verify_custom
  rw [decompressIfCompressed_noop env stat _ hhead]

/-- In probe mode the disjointness loop fails with `(False, None)` as soon
as some declared pair's two substituted expressions both contain at least
one variable — no intersection of the two variable sets is required. -/
theorem checkDisjointV_probe_fails (env : Env) (name : String) (σ : Subst) :
    ∀ dvs : List (String × String),
      (∀ xy ∈ dvs, (σ xy.1).isSome ∧ (σ xy.2).isSome) →
      (∃ xy ∈ dvs, find_vars env.fs ((σ xy.1).getD []) ≠ [] ∧
        find_vars env.fs ((σ xy.2).getD []) ≠ []) →
      checkDisjointV env false name σ dvs = .error .probe := by
  intro dvs
  induction dvs with
  | nil =>
    intro _ hex
    rcases hex with ⟨xy, h, _⟩
    cases h
  | cons xy rest ih =>
    intro hdef hex
    obtain ⟨x, y⟩ := xy
    obtain ⟨hx, hy⟩ := hdef _ (List.mem_cons_self _ _)
    cases hσx : σ x with
    | none => rw [hσx] at hx; cases hx
    | some ex =>
      cases hσy : σ y with
      | none => rw [hσy] at hy; cases hy
      | some ey =>
        unfold checkDisjointV
        rw [hσx, hσy]
        dsimp only
        rw [if_neg (by simp : ¬ (false = true))]
        by_cases hne : (!(find_vars env.fs ex).isEmpty && !(find_vars env.fs ey).isEmpty) = true
        · rw [if_pos hne]
        · rw [if_neg hne]
          apply ih
          · intro xy2 h2
            exact hdef xy2 (List.mem_cons_of_mem _ h2)
          · rcases hex with ⟨xy2, hmem, hfx, hfy⟩
            rcases List.mem_cons.mp hmem with heq | hmem2
            · exfalso
              apply hne
              subst heq
              dsimp only at hfx hfy
              rw [hσx] at hfx
              rw [hσy] at hfy
              simp only [Option.getD_some] at hfx hfy
              simp [List.isEmpty_iff, hfx, hfy]
            · exact ⟨xy2, hmem2, hfx, hfy⟩

/-- C10: probe-mode over-rejection.  For a probe-mode (`mode ≠ 'error'`)
call of `verify_custom` on an explicit label list, once the loop reaches an
`$a`/`$p` step whose declared disjointness set contains a pair `(x, y)`
whose two substituted expressions each contain at least one variable, the
call returns `(False, None)` — no condition requires the two variable sets
to intersect, so this happens even when no disjointness violation exists. -/
theorem c10_probe_over_rejection (env : Env) (stat : List String) (name : String)
    (pre rest : List String) (L : String) (stack : List ProofNode) (k : Kind)
    (a : Assertion) (σ : Subst)
    (hhead : (pre ++ L :: rest).head? ≠ some "(")
    (hloop : vSteps env false name pre [] = .ok stack)
    (hlbl : env.labels L = some (k, .assertion a))
    (hk : k = Kind.a ∨ k = Kind.p)
    (hlen : a.f_hyps.length + a.e_hyps.length ≤ stack.length)
    (hbind : bindMand .probe
      (a.f_hyps.zip ((stack.drop (stack.length - (a.f_hyps.length + a.e_hyps.length))).take
        a.f_hyps.length)) emptySubst = .ok σ)
    (hdef : ∀ xy ∈ a.dvs, (σ xy.1).isSome ∧ (σ xy.2).isSome)
    (hex : ∃ xy ∈ a.dvs, find_vars env.fs ((σ xy.1).getD []) ≠ [] ∧
      find_vars env.fs ((σ xy.2).getD []) ≠ []) :
    verify_custom env false stat (pre ++ L :: rest) name = VRes.failNone := by
  have hstep : vStepAssert env false name stack L k a = .error .probe := by
    unfold vStepAssert
    rw [if_neg (not_lt.mpr hlen)]
    dsimp only
    rw [show (if (false = true) then VErr.raised else VErr.probe) = VErr.probe from rfl]
    rw [hbind]
    dsimp only
    rw [checkDisjointV_probe_fails env name σ a.dvs hdef hex]
  have hv : vStep env false name stack L = .error .probe := by
    unfold vStep
    rw [hlbl]
    rcases hk with rfl | rfl
    · exact hstep
    · exact hstep
  have hloop2 : vSteps env false name (pre ++ L :: rest) [] = .error .probe := by
    rw [vSteps_append env false name pre (L :: rest) [] stack hloop, vSteps_cons, hv]
  have hne2 : pre ++ L :: rest ≠ [] := by
    cases pre <;> simp
  rw [verify_custom_explicit env false stat (pre ++ L :: rest) name hne2 hhead, hloop2]

theorem c10_witness :
    verify_custom envC10 false ["wff", "x", "y"] (["wx", "wy"] ++ "axd" :: []) "n" =
        VRes.failNone ∧
      (∀ v, v ∈ find_vars envC10.fs ((σC10 "x").getD []) →
        v ∉ find_vars envC10.fs ((σC10 "y").getD [])) :=
  ⟨c10_probe_over_rejection envC10 ["wff", "x", "y"] "n" ["wx", "wy"] [] "axd"
      [nwxC10, nwyC10] Kind.a aC10 σC10 (by decide) rfl rfl (Or.inl rfl) (by decide) rfl
      (by decide) (by decide),
    by decide⟩

/-! ## C9 -/

theorem coloredIdx_nodup (preds : List ℚ) : (coloredIdx preds).Nodup := by
  unfold coloredIdx
  have hsub : ((preds.enum.filter fun ip => pyRound ip.2 == 1).map Prod.fst).Sublist
      (preds.enum.map Prod.fst) :=
    (List.filter_sublist _).map Prod.fst
  have hnd : (preds.enum.map Prod.fst).Nodup := by
    rw [List.enum_map_fst]
    exact List.nodup_range _
  exact hnd.sublist hsub

theorem mem_inducedEdges (raw : ProofRaw) (preds : List ℚ) (e : Nat × Nat) :
    e ∈ inducedEdges raw preds →
      e.1 ∈ coloredIdx preds ∧ e.2 ∈ coloredIdx preds := by
  intro h
  unfold inducedEdges at h
  have := List.of_mem_filter h
  simpa using this

theorem mem_incomingList (raw : ProofRaw) (preds : List ℚ) (kk : Nat) :
    kk ∈ incomingList raw preds ↔ ∃ e ∈ inducedEdges raw preds, e.2 = kk := by
  unfold incomingList
  constructor
  · intro h
    rw [List.mem_flatten] at h
    obtain ⟨l, hl, hk⟩ := h
    rw [List.mem_map] at hl
    obtain ⟨c, _, rfl⟩ := hl
    rw [List.mem_map] at hk
    obtain ⟨e, he, heq⟩ := hk
    exact ⟨e, List.mem_of_mem_filter he, heq⟩
  · rintro ⟨e, he, rfl⟩
    rw [List.mem_flatten]
    refine ⟨(((inducedEdges raw preds).filter fun st2 => st2.1 == e.1).map Prod.snd), ?_, ?_⟩
    · exact List.mem_map_of_mem _ ((mem_inducedEdges raw preds e he).1)
    · exact List.mem_map_of_mem _ (List.mem_filter.mpr ⟨he, by simp⟩)

theorem incomingList_subset (raw : ProofRaw) (preds : List ℚ) (kk : Nat)
    (h : kk ∈ incomingList raw preds) : kk ∈ coloredIdx preds := by
  rw [mem_incomingList] at h
  obtain ⟨e, he, rfl⟩ := h
  exact (mem_inducedEdges raw preds e he).2

/-- The number of colored nodes without an incoming induced edge equals the
total colored count minus the length of `nodes_with_incoming_edges`,
provided the latter is duplicate-free (the source's assert). -/
theorem noIncoming_count (raw : ProofRaw) (preds : List ℚ)
    (h3 : (incomingList raw preds).Nodup) :
    ((coloredIdx preds).filter fun kk =>
        !((inducedEdges raw preds).any fun e => e.2 == kk)).length =
      (coloredIdx preds).length - (incomingList raw preds).length ∧
    (incomingList raw preds).length ≤ (coloredIdx preds).length := by
  classical
  set C := coloredIdx preds with hC
  set I := incomingList raw preds with hI
  have hCnd : C.Nodup := coloredIdx_nodup preds
  have hfc : (C.filter fun kk => !((inducedEdges raw preds).any fun e => e.2 == kk)) =
      C.filter fun kk => decide (kk ∉ I) := by
    apply List.filter_congr
    intro kk _
    have hiff : (kk ∈ I) ↔ ∃ e ∈ inducedEdges raw preds, e.2 = kk :=
      mem_incomingList raw preds kk
    by_cases hk : kk ∈ I
    · obtain ⟨e, he, hek⟩ := hiff.mp hk
      have hany : (inducedEdges raw preds).any (fun e => e.2 == kk) = true := by
        rw [List.any_eq_true]
        exact ⟨e, he, by simp [hek]⟩
      simp [hany, hk]
    · have hany : (inducedEdges raw preds).any (fun e => e.2 == kk) = false := by
        rw [List.any_eq_false]
        intro e he
        simp only [beq_iff_eq]
        intro hek
        exact hk (hiff.mpr ⟨e, he, hek⟩)
      simp [hany, hk]
  have hIC : I.toFinset ⊆ C.toFinset := by
    intro kk hk
    rw [List.mem_toFinset] at *
    exact incomingList_subset raw preds kk hk
  have hlenI : I.toFinset.card = I.length := List.toFinset_card_of_nodup h3
  have hlenC : C.toFinset.card = C.length := List.toFinset_card_of_nodup hCnd
  have hIle : I.length ≤ C.length := by
    rw [← hlenI, ← hlenC]
    exact Finset.card_le_card hIC
  refine ⟨?_, hIle⟩
  rw [hfc]
  have hnd2 : (C.filter fun kk => decide (kk ∉ I)).Nodup := hCnd.filter _
  rw [← List.toFinset_card_of_nodup hnd2, List.toFinset_filter]
  have heq : (C.toFinset.filter fun x => decide (x ∉ I) = true) = C.toFinset \ I.toFinset := by
    rw [Finset.sdiff_eq_filter]
    apply Finset.filter_congr
    intro kk _
    simp
  rw [heq, Finset.card_sdiff hIC, hlenI, hlenC]

/-- Length-preserving deduplication means the list is duplicate-free. -/
theorem nodup_of_dedup_length (l : List Nat) (h : l.dedup.length = l.length) :
    l.Nodup := by
  have hsub : l.dedup.Sublist l := List.dedup_sublist l
  have : l.dedup = l := hsub.eq_of_length h
  rw [← this]
  exact List.nodup_dedup l

/-- C9: `check_proof_is_tree` returns 1 exactly when the subgraph induced on
the nodes with rounded prediction 1 has more than one node and exactly one
of them has no incoming edge; in particular a coloring of two isolated
substituted nodes with no edge between them yields 0.  (The hypotheses are
the conditions under which the Python asserts and index accesses do not
crash; they hold for every exported graph.) -/
theorem c9_check_proof_is_tree (raw : ProofRaw) (preds : List ℚ)
    (h1 : raw.nodes.length = preds.length)
    (h2 : raw.target.length ≤ raw.source.length)
    (h3 : (incomingList raw preds).dedup.length = (incomingList raw preds).length) :
    (check_proof_is_tree raw preds = some 1 ↔
      (1 < (coloredIdx preds).length ∧
        ((coloredIdx preds).filter fun kk =>
          !((inducedEdges raw preds).any fun e => e.2 == kk)).length = 1)) ∧
    check_proof_is_tree rawC9 predsC9 = some 0 := by
  have hnd : (incomingList raw preds).Nodup := nodup_of_dedup_length _ h3
  constructor
  · unfold check_proof_is_tree
    rw [if_neg (by omega : ¬ raw.nodes.length ≠ preds.length)]
    dsimp only
    by_cases hc : (coloredIdx preds).length ≤ 1
    · rw [if_pos hc]
      constructor
      · intro h; cases h
      · intro ⟨hgt, _⟩; omega
    · rw [if_neg hc]
      rw [if_neg (by omega : ¬ raw.source.length < raw.target.length)]
      rw [if_neg (by omega : ¬ (incomingList raw preds).dedup.length ≠ (incomingList raw preds).length)]
      obtain ⟨hcount, hle⟩ := noIncoming_count raw preds hnd
      by_cases hne1 : ((coloredIdx preds).length : ℤ) - ((incomingList raw preds).length : ℤ) ≠ 1
      · rw [if_pos hne1]
        constructor
        · intro h; cases h
        · intro ⟨_, hone⟩
          rw [hcount] at hone
          omega
      · rw [if_neg hne1]
        constructor
        · intro _
          refine ⟨by omega, ?_⟩
          rw [hcount]
          omega
        · intro _; rfl
  · decide

theorem c9_witness :
    ((incomingList rawC9 predsC9).dedup.length = (incomingList rawC9 predsC9).length) ∧
      (check_proof_is_tree rawC9 predsC9 = some 1 ↔
        (1 < (coloredIdx predsC9).length ∧
          ((coloredIdx predsC9).filter fun kk =>
            !((inducedEdges rawC9 predsC9).any fun e => e.2 == kk)).length = 1)) :=
  ⟨by decide,
    (c9_check_proof_is_tree rawC9 predsC9 (by decide) (by decide) (by decide)).1⟩

/-! ## C7 -/

/-- Structural induction over `ProofNode` with membership hypotheses for
the two child lists. -/
theorem ProofNode.inductionOn (P : ProofNode → Prop)
    (step : ∀ (l : String) (t : Kind) (e : List String) (mvs hs : List ProofNode)
      (s : Bool) (nm : String),
      (∀ c ∈ mvs, P c) → (∀ c ∈ hs, P c) → P (.mk l t e mvs hs s nm)) :
    ∀ n, P n := by
  have H : ∀ k n, sizeOf n ≤ k → P n := by
    intro k
    induction k with
    | zero =>
      intro n hn
      cases n with
      | mk l t e mvs hs s nm =>
        exfalso
        simp at hn
    | succ k ih =>
      intro n hn
      cases n with
      | mk l t e mvs hs s nm =>
        apply step
        · intro c hc
          apply ih
          have h1 := List.sizeOf_lt_of_mem hc
          simp at hn
          omega
        · intro c hc
          apply ih
          have h1 := List.sizeOf_lt_of_mem hc
          simp at hn
          omega
  exact fun n => H (sizeOf n) n le_rfl

theorem allNodes_mk (l : String) (t : Kind) (e : List String)
    (mvs hs : List ProofNode) (s : Bool) (nm : String) :
    allNodes (.mk l t e mvs hs s nm) =
      ProofNode.mk l t e mvs hs s nm :: (allNodesList mvs ++ allNodesList hs) := by
  simp [allNodes]

theorem setSubstTrue_subst (n : ProofNode) : (setSubstTrue n).subst = true := by
  cases n; rfl

theorem setSubstTrue_children (n : ProofNode) :
    (setSubstTrue n).children = n.children := by
  cases n; rfl

theorem allNodes_setSubstTrue (n : ProofNode) :
    allNodes (setSubstTrue n) =
      setSubstTrue n :: (allNodesList n.mand_vars ++ allNodesList n.hps) := by
  cases n
  simp [setSubstTrue, allNodes, ProofNode.mand_vars, ProofNode.hps]

theorem self_mem_allNodes (n : ProofNode) : n ∈ allNodes n := by
  cases n
  rw [allNodes_mk]
  exact List.mem_cons_self _ _

theorem mem_allNodes_of_mem_children_lists (l : String) (t : Kind) (e : List String)
    (mvs hs : List ProofNode) (s : Bool) (nm : String) (m : ProofNode)
    (h : m ∈ allNodesList mvs ++ allNodesList hs) :
    m ∈ allNodes (.mk l t e mvs hs s nm) := by
  rw [allNodes_mk]
  exact List.mem_cons_of_mem _ h

/-- `goodNode` is preserved when only the root flag of a subtree satisfying
it everywhere is raised. -/
theorem goodNode_setSubstTrue (c : ProofNode)
    (h : ∀ m ∈ allNodes c, goodNode m) :
    ∀ m ∈ allNodes (setSubstTrue c), goodNode m := by
  intro m hm
  rw [allNodes_setSubstTrue] at hm
  rcases List.mem_cons.mp hm with rfl | hm2
  · intro hany
    refine ⟨setSubstTrue_subst c, ?_⟩
    rw [setSubstTrue_children] at *
    exact (h c (self_mem_allNodes c) hany).2
  · apply h
    cases c
    rw [allNodes_mk]
    exact List.mem_cons_of_mem _ hm2

theorem flagsLe_setSubstTrue (a b : ProofNode) (h : flagsLe a b = true) :
    flagsLe a (setSubstTrue b) = true := by
  cases a with
  | mk al at_ ae amvs ahs asb anm =>
    cases b with
    | mk bl bt be bmvs bhs bsb bnm =>
      simp only [setSubstTrue, flagsLe, Bool.and_eq_true] at h ⊢
      exact ⟨⟨by simp, h.1.2⟩, h.2⟩

/-- List-level facts for the zipped recursive `mark_subst`/`copy_subst`
passes over same-shaped child lists. -/
theorem markSubstZip_facts :
    ∀ (xs ys : List ProofNode),
      sameShapeList xs ys = true →
      (∀ x ∈ xs, ∀ o, sameShape x o = true →
        (∀ m ∈ allNodes (markSubst true x o), goodNode m) ∧
          flagsLe (copySubst x o) (markSubst true x o) = true) →
      (∀ m ∈ allNodesList (markSubstZip xs ys), goodNode m) ∧
      (∀ m ∈ allNodesList ((markSubstZip xs ys).map setSubstTrue), goodNode m) ∧
      flagsLeList (copySubstZip xs ys) (markSubstZip xs ys) = true ∧
      flagsLeList (copySubstZip xs ys) ((markSubstZip xs ys).map setSubstTrue) = true := by
  intro xs
  induction xs with
  | nil =>
    intro ys hshape _
    cases ys with
    | nil =>
      refine ⟨?_, ?_, ?_, ?_⟩ <;> simp [markSubstZip, copySubstZip, allNodesList, flagsLeList]
    | cons y ys => simp [sameShapeList] at hshape
  | cons x xs ih =>
    intro ys hshape hIH
    cases ys with
    | nil => simp [sameShapeList] at hshape
    | cons y ys =>
      have hshape2 : sameShape x y = true ∧ sameShapeList xs ys = true := by
        simpa [sameShapeList, Bool.and_eq_true] using hshape
      have hx := hIH x (List.mem_cons_self _ _) y hshape2.1
      have hrest := ih ys hshape2.2 (fun x2 hx2 => hIH x2 (List.mem_cons_of_mem _ hx2))
      have hzip : markSubstZip (x :: xs) (y :: ys) =
          markSubst true x y :: markSubstZip xs ys := by
        simp [markSubstZip]
      have hczip : copySubstZip (x :: xs) (y :: ys) =
          copySubst x y :: copySubstZip xs ys := by
        simp [copySubstZip]
      refine ⟨?_, ?_, ?_, ?_⟩
      · intro m hm
        rw [hzip] at hm
        simp only [allNodesList, List.mem_append] at hm
        rcases hm with hm | hm
        · exact hx.1 m hm
        · exact hrest.1 m hm
      · intro m hm
        rw [hzip] at hm
        simp only [List.map_cons, allNodesList, List.mem_append] at hm
        rcases hm with hm | hm
        · exact goodNode_setSubstTrue _ hx.1 m hm
        · exact hrest.2.1 m hm
      · rw [hzip, hczip]
        simp only [flagsLeList, Bool.and_eq_true]
        exact ⟨hx.2, hrest.2.2.1⟩
      · rw [hzip, hczip]
        simp only [List.map_cons, flagsLeList, Bool.and_eq_true]
        exact ⟨flagsLe_setSubstTrue _ _ hx.2, hrest.2.2.2⟩

/-- C7: after `mark_subst` with `propagate=True` over a parallel
(same-shaped) tree, every node with a substituted immediate child is itself
substituted with all its immediate children substituted (OR-propagation),
and no flag set by the flag-copying pass (`copy_subst_from_node` semantics)
is ever cleared by the propagation (monotonicity). -/
theorem c7_mark_subst_propagation (s o : ProofNode) (h : sameShape s o = true) :
    (∀ m ∈ allNodes (markSubst true s o), goodNode m) ∧
      flagsLe (copySubst s o) (markSubst true s o) = true := by
  induction s using ProofNode.inductionOn generalizing o with
  | step l t e mvs hs sb nm ihm ihh =>
    cases o with
    | mk ol ot oe omvs ohs osb onm =>
      have hshape : sameShapeList mvs omvs = true ∧ sameShapeList hs ohs = true := by
        simpa [sameShape, Bool.and_eq_true] using h
      have hfm := markSubstZip_facts mvs omvs hshape.1 (fun x hx => ihm x hx)
      have hfh := markSubstZip_facts hs ohs hshape.2 (fun x hx => ihh x hx)
      have hcopy : copySubst (.mk l t e mvs hs sb nm) (.mk ol ot oe omvs ohs osb onm) =
          ProofNode.mk l t e (copySubstZip mvs omvs) (copySubstZip hs ohs) osb nm := by
        simp [copySubst]
      by_cases hcond :
          0 < (List.map ProofNode.subst (markSubstZip mvs omvs) ++
            List.map ProofNode.subst (markSubstZip hs ohs)).length ∧
          (List.map ProofNode.subst (markSubstZip mvs omvs) ++
            List.map ProofNode.subst (markSubstZip hs ohs)).any id = true
      · obtain ⟨hc1, hc2⟩ := hcond
        have hmark : markSubst true (.mk l t e mvs hs sb nm) (.mk ol ot oe omvs ohs osb onm) =
            ProofNode.mk l t e ((markSubstZip mvs omvs).map setSubstTrue)
              ((markSubstZip hs ohs).map setSubstTrue) true nm := by
          simp only [markSubst]
          rw [if_pos]
          exact ⟨trivial, hc1, hc2⟩
        rw [hmark, hcopy]
        constructor
        · intro m hm
          rw [allNodes_mk] at hm
          rcases List.mem_cons.mp hm with rfl | hm2
          · intro _
            refine ⟨rfl, ?_⟩
            intro c hc
            simp only [ProofNode.children, ProofNode.mand_vars, ProofNode.hps,
              List.mem_append, List.mem_map] at hc
            rcases hc with ⟨c2, _, rfl⟩ | ⟨c2, _, rfl⟩ <;> exact setSubstTrue_subst c2
          · rcases List.mem_append.mp hm2 with hm3 | hm3
            · exact hfm.2.1 m hm3
            · exact hfh.2.1 m hm3
        · simp only [flagsLe, Bool.and_eq_true]
          exact ⟨⟨by simp, hfm.2.2.2⟩, hfh.2.2.2⟩
      · have hmark : markSubst true (.mk l t e mvs hs sb nm) (.mk ol ot oe omvs ohs osb onm) =
            ProofNode.mk l t e (markSubstZip mvs omvs) (markSubstZip hs ohs) osb nm := by
          simp only [markSubst]
          rw [if_neg]
          intro hcc
          exact hcond ⟨hcc.2.1, hcc.2.2⟩
        rw [hmark, hcopy]
        constructor
        · intro m hm
          rw [allNodes_mk] at hm
          rcases List.mem_cons.mp hm with rfl | hm2
          · intro hany
            exfalso
            apply hcond
            simp only [ProofNode.children, ProofNode.mand_vars, ProofNode.hps] at hany
            rcases List.any_eq_true.mp hany with ⟨c, hc, hcs⟩
            constructor
            · have hne : ((markSubstZip mvs omvs).map ProofNode.subst ++
                  (markSubstZip hs ohs).map ProofNode.subst) ≠ [] := by
                simp only [ne_eq, List.append_eq_nil, List.map_eq_nil_iff, not_and]
                intro h1 h2
                rw [h1, h2] at hc
                cases hc
              cases hl : ((markSubstZip mvs omvs).map ProofNode.subst ++
                  (markSubstZip hs ohs).map ProofNode.subst) with
              | nil => exact absurd hl hne
              | cons a b => simp
            · rw [List.any_eq_true]
              refine ⟨c.subst, ?_, hcs⟩
              rcases List.mem_append.mp hc with hc2 | hc2
              · exact List.mem_append_left _ (List.mem_map_of_mem ProofNode.subst hc2)
              · exact List.mem_append_right _ (List.mem_map_of_mem ProofNode.subst hc2)
          · rcases List.mem_append.mp hm2 with hm3 | hm3
            · exact hfm.1 m hm3
            · exact hfh.1 m hm3
        · simp only [flagsLe, Bool.and_eq_true]
          refine ⟨⟨?_, hfm.2.2.1⟩, hfh.2.2.1⟩
          cases osb <;> simp

theorem c7_witness :
    sameShape sC7 oC7 = true ∧
      ((∀ m ∈ allNodes (markSubst true sC7 oC7), goodNode m) ∧
        flagsLe (copySubst sC7 oC7) (markSubst true sC7 oC7) = true) :=
  ⟨by simp [sC7, oC7, leafFalseC7, leafTrueC7, sameShape, sameShapeList],
    c7_mark_subst_propagation sC7 oC7
      (by simp [sC7, oC7, leafFalseC7, leafTrueC7, sameShape, sameShapeList])⟩

/-! ## C8 -/

theorem summarize_setSubstFalse (n : ProofNode) :
    summarize (setSubstFalse n) = summarize n := by
  cases n with
  | mk l t e mvs hs s nm => simp [setSubstFalse, summarize]

theorem sumLen_append (a b : List ProofNode) :
    sumLen (a ++ b) = sumLen a + sumLen b := by
  simp [sumLen]

theorem sumLen_cons (a : ProofNode) (b : List ProofNode) :
    sumLen (a :: b) = (summarize a).length + sumLen b := by
  simp [sumLen]

theorem summarizeList_length (l : List ProofNode) :
    (summarizeList l).length = sumLen l := by
  induction l with
  | nil => simp [summarizeList, sumLen]
  | cons x xs ih => simp only [summarizeList, List.length_append, ih, sumLen_cons]

theorem colorEFLeavesList_cons (n : ProofNode) (ns : List ProofNode) :
    colorEFLeavesList (n :: ns) = colorEFChild n :: colorEFLeavesList ns := by
  simp [colorEFLeavesList, colorEFChild]

theorem copySubstZip_nil (xs : List ProofNode) : copySubstZip xs [] = xs := by
  simp [copySubstZip]

theorem copySubstZip_cons (x y : ProofNode) (xs ys : List ProofNode) :
    copySubstZip (x :: xs) (y :: ys) = copySubst x y :: copySubstZip xs ys := by
  simp [copySubstZip]

theorem postOrderList_cons (n : ProofNode) (ns : List ProofNode) :
    postOrderList (n :: ns) = postOrder n ++ postOrderList ns := by
  simp [postOrderList]

theorem allNodesList_cons (n : ProofNode) (ns : List ProofNode) :
    allNodesList (n :: ns) = allNodes n ++ allNodesList ns := by
  simp [allNodesList]

theorem postOrderList_subset_aux (l : List ProofNode)
    (ih : ∀ c ∈ l, ∀ n ∈ postOrder c, n ∈ allNodes c) :
    ∀ n ∈ postOrderList l, n ∈ allNodesList l := by
  induction l with
  | nil => intro n hn; simp [postOrderList] at hn
  | cons x xs ihl =>
    intro n hn
    rw [postOrderList_cons] at hn
    rw [allNodesList_cons]
    rcases List.mem_append.1 hn with h | h
    · exact List.mem_append.2 (Or.inl (ih x (by simp) n h))
    · exact List.mem_append.2 (Or.inr (ihl (fun c hc => ih c (by simp [hc])) n h))

theorem mem_allNodes_of_mem_postOrder (x : ProofNode) :
    ∀ n ∈ postOrder x, n ∈ allNodes x := by
  induction x using ProofNode.inductionOn with
  | _ l t e mvs hs s nm ih1 ih2 =>
    intro n hn
    simp only [postOrder, List.mem_append, List.mem_singleton] at hn
    simp only [allNodes, List.mem_cons, List.mem_append]
    rcases hn with (h | h) | h
    · exact Or.inr (Or.inl (postOrderList_subset_aux mvs ih1 n h))
    · exact Or.inr (Or.inr (postOrderList_subset_aux hs ih2 n h))
    · exact Or.inl h

theorem matchRel_inversion (lbls : String → Option (Kind × LabelData))
    (o m : ProofNode) (h : MatchRel lbls o m) :
    (∃ k d, lbls m.label = some (k, d) ∧ (k = Kind.e ∨ k = Kind.f) ∧
      m.mand_vars = [] ∧ m.hps = []) ∨
    (∃ k d, lbls m.label = some (k, d) ∧ (k = Kind.a ∨ k = Kind.p) ∧
      o.label = m.label ∧
      o.mand_vars.length = m.mand_vars.length ∧ o.hps.length = m.hps.length ∧
      (∀ p ∈ o.mand_vars.zip m.mand_vars, MatchRel lbls p.1 p.2) ∧
      (∀ p ∈ o.hps.zip m.hps, MatchRel lbls p.1 p.2)) := by
  cases h with
  | hyp o ml mt me ms mnm k d h1 h2 =>
    left
    exact ⟨k, d, h1, h2, rfl, rfl⟩
  | assert l t1 t2 e1 e2 mvs1 hs1 mvs2 hs2 s1 s2 nm1 nm2 k d hlk hk hlen1 hlen2 hz1 hz2 =>
    right
    exact ⟨k, d, hlk, hk, rfl, hlen1, hlen2, hz1, hz2⟩

theorem keyListAux (lbls : String → Option (Kind × LabelData)) :
    ∀ (ms os : List ProofNode),
    (∀ m ∈ ms, ∀ o : ProofNode, MatchRel lbls o m →
      (∀ n ∈ allNodes m, ∃ d, lbls n.label = some (n.typ, d)) →
      (∀ n ∈ allNodes o, n.subst = false) →
      (∀ n ∈ allNodes m, n.subst = false) →
      (summarize o).length =
        sumLen ((postOrder (copySubst o (colorEFChild m))).filter ProofNode.subst) + inertIn m) →
    os.length = ms.length →
    (∀ p ∈ os.zip ms, MatchRel lbls p.1 p.2) →
    (∀ n ∈ allNodesList ms, ∃ d, lbls n.label = some (n.typ, d)) →
    (∀ n ∈ allNodesList os, n.subst = false) →
    (∀ n ∈ allNodesList ms, n.subst = false) →
    (summarizeList os).length =
      sumLen ((postOrderList (copySubstZip os (colorEFLeavesList ms))).filter ProofNode.subst)
        + inertInList ms := by
  intro ms
  induction ms with
  | nil =>
    intro os _ hlen _ _ _ _
    have hos : os = [] := List.length_eq_zero.1 hlen
    subst hos
    simp [summarizeList, colorEFLeavesList, copySubstZip, postOrderList, sumLen, inertInList]
  | cons m ms ih =>
    intro os hIH hlen hzip hcons hfo hfm
    cases os with
    | nil => simp at hlen
    | cons o os =>
      rw [colorEFLeavesList_cons, copySubstZip_cons, postOrderList_cons, List.filter_append,
        sumLen_append]
      have hhead : (summarize o).length =
          sumLen ((postOrder (copySubst o (colorEFChild m))).filter ProofNode.subst)
            + inertIn m := by
        apply hIH m (by simp) o
        · exact hzip (o, m) (by simp [List.zip_cons_cons])
        · intro n hn; exact hcons n (by rw [allNodesList_cons]; exact List.mem_append.2 (Or.inl hn))
        · intro n hn; exact hfo n (by rw [allNodesList_cons]; exact List.mem_append.2 (Or.inl hn))
        · intro n hn; exact hfm n (by rw [allNodesList_cons]; exact List.mem_append.2 (Or.inl hn))
      have htail := ih os (fun m' hm' => hIH m' (by simp [hm']))
        (by simpa using hlen)
        (fun p hp => hzip p (by rw [List.zip_cons_cons]; exact List.mem_cons_of_mem _ hp))
        (fun n hn => hcons n (by rw [allNodesList_cons]; exact List.mem_append.2 (Or.inr hn)))
        (fun n hn => hfo n (by rw [allNodesList_cons]; exact List.mem_append.2 (Or.inr hn)))
        (fun n hn => hfm n (by rw [allNodesList_cons]; exact List.mem_append.2 (Or.inr hn)))
      have hsum : (summarizeList (o :: os)).length
          = (summarize o).length + (summarizeList os).length := by
        simp [summarizeList]
      rw [hsum, hhead, htail]
      simp only [inertInList]
      omega

theorem postOrderList_subset (l : List ProofNode) :
    ∀ n ∈ postOrderList l, n ∈ allNodesList l :=
  postOrderList_subset_aux l (fun c _ => mem_allNodes_of_mem_postOrder c)

theorem keyNodeAux (lbls : String → Option (Kind × LabelData)) :
    ∀ (m : ProofNode) (o : ProofNode), MatchRel lbls o m →
      (∀ n ∈ allNodes m, ∃ d, lbls n.label = some (n.typ, d)) →
      (∀ n ∈ allNodes o, n.subst = false) →
      (∀ n ∈ allNodes m, n.subst = false) →
      (summarize o).length =
        sumLen ((postOrder (copySubst o (colorEFChild m))).filter ProofNode.subst)
          + inertIn m := by
  intro m
  induction m using ProofNode.inductionOn with
  | _ ml mt me mmvs mhs msub mnm ih1 ih2 =>
    intro o hm hcons hfo hfm
    obtain ⟨ol, ot, oe, omvs, ohs, osub, onm⟩ := o
    have hmsub : msub = false := by
      have := hfm _ (self_mem_allNodes _)
      simpa [ProofNode.subst] using this
    obtain ⟨d2, hd2⟩ := hcons _ (self_mem_allNodes (ProofNode.mk ml mt me mmvs mhs msub mnm))
    simp only [ProofNode.label, ProofNode.typ] at hd2
    rcases matchRel_inversion lbls _ _ hm with
      ⟨k, d, hlk, hk, hmv, hhs⟩ | ⟨k, d, hlk, hk, hlbl, hl1, hl2, hz1, hz2⟩
    · -- hypothesis-labelled template: necessarily an `$e`/`$f` leaf
      simp only [ProofNode.label, ProofNode.mand_vars, ProofNode.hps] at hlk hmv hhs
      subst hmv; subst hhs
      rw [hd2] at hlk
      have hkt : mt = k := congrArg Prod.fst (Option.some.inj hlk)
      have hke : mt = Kind.e ∨ mt = Kind.f := hkt ▸ hk
      have hc : colorEFChild (ProofNode.mk ml mt me [] [] msub mnm)
          = ProofNode.mk ml mt me [] [] true mnm := by
        simp [colorEFChild, ProofNode.mand_vars, ProofNode.hps, ProofNode.typ, hke, setSubstTrue]
      have hcp : copySubst (ProofNode.mk ol ot oe omvs ohs osub onm)
            (ProofNode.mk ml mt me [] [] true mnm)
          = ProofNode.mk ol ot oe omvs ohs true onm := by
        simp [copySubst, copySubstZip]
      rw [hc, hcp]
      rw [show postOrder (ProofNode.mk ol ot oe omvs ohs true onm)
          = postOrderList omvs ++ postOrderList ohs
              ++ [ProofNode.mk ol ot oe omvs ohs true onm] from by simp [postOrder]]
      have hfa : (postOrderList omvs).filter ProofNode.subst = [] := by
        rw [List.filter_eq_nil_iff]
        intro a ha
        have := hfo a (mem_allNodes_of_mem_children_lists _ _ _ _ _ _ _ _
          (List.mem_append.2 (Or.inl (postOrderList_subset _ a ha))))
        simp [this]
      have hfb : (postOrderList ohs).filter ProofNode.subst = [] := by
        rw [List.filter_eq_nil_iff]
        intro a ha
        have := hfo a (mem_allNodes_of_mem_children_lists _ _ _ _ _ _ _ _
          (List.mem_append.2 (Or.inr (postOrderList_subset _ a ha))))
        simp [this]
      rw [List.filter_append, List.filter_append, hfa, hfb]
      simp [sumLen, summarize, inertIn, ProofNode.subst, hke]
    · -- assertion-labelled template
      simp only [ProofNode.label, ProofNode.mand_vars, ProofNode.hps] at hlk hlbl hl1 hl2 hz1 hz2
      rw [hd2] at hlk
      have hkt : mt = k := congrArg Prod.fst (Option.some.inj hlk)
      have htne : ¬(mt = Kind.e ∨ mt = Kind.f) := by
        subst hkt; rcases hk with rfl | rfl <;> simp
      by_cases hleaf : (mmvs.isEmpty && mhs.isEmpty) = true
      · -- childless template of `$a`/`$p` type: an inert leaf
        rw [Bool.and_eq_true, List.isEmpty_iff, List.isEmpty_iff] at hleaf
        obtain ⟨he1, he2⟩ := hleaf
        subst he1; subst he2
        have ho1 : omvs = [] := List.length_eq_zero.1 (by simpa using hl1)
        have ho2 : ohs = [] := List.length_eq_zero.1 (by simpa using hl2)
        subst ho1; subst ho2
        have hc : colorEFChild (ProofNode.mk ml mt me [] [] msub mnm)
            = ProofNode.mk ml mt me [] [] msub mnm := by
          simp [colorEFChild, ProofNode.mand_vars, ProofNode.hps, ProofNode.typ, htne]
        have hcp : copySubst (ProofNode.mk ol ot oe [] [] osub onm)
              (ProofNode.mk ml mt me [] [] msub mnm)
            = ProofNode.mk ol ot oe [] [] msub onm := by
          simp [copySubst, copySubstZip]
        rw [hc, hcp, hmsub]
        simp [postOrder, postOrderList, summarize, summarizeList, sumLen, inertIn, htne,
          ProofNode.subst]
      · -- template with children: recurse into both zipped child lists
        have hleaf' : (mmvs.isEmpty && mhs.isEmpty) = false := by
          revert hleaf; cases (mmvs.isEmpty && mhs.isEmpty) <;> simp
        have hc : colorEFChild (ProofNode.mk ml mt me mmvs mhs msub mnm)
            = ProofNode.mk ml mt me (colorEFLeavesList mmvs) (colorEFLeavesList mhs) msub mnm := by
          rw [colorEFChild]
          simp only [ProofNode.mand_vars, ProofNode.hps, hleaf']
          simp [colorEFLeaves]
        have hcp : copySubst (ProofNode.mk ol ot oe omvs ohs osub onm)
              (ProofNode.mk ml mt me (colorEFLeavesList mmvs) (colorEFLeavesList mhs) msub mnm)
            = ProofNode.mk ol ot oe (copySubstZip omvs (colorEFLeavesList mmvs))
                (copySubstZip ohs (colorEFLeavesList mhs)) msub onm := by
          simp [copySubst]
        rw [hc, hcp, hmsub]
        rw [show postOrder (ProofNode.mk ol ot oe (copySubstZip omvs (colorEFLeavesList mmvs))
              (copySubstZip ohs (colorEFLeavesList mhs)) false onm)
            = postOrderList (copySubstZip omvs (colorEFLeavesList mmvs))
                ++ postOrderList (copySubstZip ohs (colorEFLeavesList mhs))
                ++ [ProofNode.mk ol ot oe (copySubstZip omvs (colorEFLeavesList mmvs))
                      (copySubstZip ohs (colorEFLeavesList mhs)) false onm] from by
          simp [postOrder]]
        rw [List.filter_append, List.filter_append]
        rw [show List.filter ProofNode.subst
              [ProofNode.mk ol ot oe (copySubstZip omvs (colorEFLeavesList mmvs))
                (copySubstZip ohs (colorEFLeavesList mhs)) false onm] = [] from by
          simp [ProofNode.subst]]
        have h1 := keyListAux lbls mmvs omvs ih1 hl1 hz1
          (fun n hn => hcons n (mem_allNodes_of_mem_children_lists _ _ _ _ _ _ _ _
            (List.mem_append.2 (Or.inl hn))))
          (fun n hn => hfo n (mem_allNodes_of_mem_children_lists _ _ _ _ _ _ _ _
            (List.mem_append.2 (Or.inl hn))))
          (fun n hn => hfm n (mem_allNodes_of_mem_children_lists _ _ _ _ _ _ _ _
            (List.mem_append.2 (Or.inl hn))))
        have h2 := keyListAux lbls mhs ohs ih2 hl2 hz2
          (fun n hn => hcons n (mem_allNodes_of_mem_children_lists _ _ _ _ _ _ _ _
            (List.mem_append.2 (Or.inr hn))))
          (fun n hn => hfo n (mem_allNodes_of_mem_children_lists _ _ _ _ _ _ _ _
            (List.mem_append.2 (Or.inr hn))))
          (fun n hn => hfm n (mem_allNodes_of_mem_children_lists _ _ _ _ _ _ _ _
            (List.mem_append.2 (Or.inr hn))))
        have hL : (summarize (ProofNode.mk ol ot oe omvs ohs osub onm)).length
            = (summarizeList omvs).length + (summarizeList ohs).length + 1 := by
          simp [summarize]
          omega
        have hI : inertIn (ProofNode.mk ml mt me mmvs mhs false mnm)
            = 1 + (inertInList mmvs + inertInList mhs) := by
          simp [inertIn, hleaf']
        rw [hL, hI, sumLen_append, sumLen_append, h1, h2]
        simp [sumLen]
        omega

theorem keyRootEq (lbls : String → Option (Kind × LabelData)) (orig T : ProofNode)
    (hm : MatchRel lbls orig T)
    (hcons : ∀ n ∈ allNodes T, ∃ d, lbls n.label = some (n.typ, d))
    (hfo : ∀ n ∈ allNodes orig, n.subst = false)
    (hfT : ∀ n ∈ allNodes T, n.subst = false)
    (hleafT : (T.mand_vars.isEmpty && T.hps.isEmpty) = false) :
    (summarize orig).length =
      sumLen ((postOrder (followColor orig (colorEFLeaves T))).filter ProofNode.subst)
        + inertIn T := by
  have h := keyNodeAux lbls T orig hm hcons hfo hfT
  have hc : colorEFChild T = colorEFLeaves T := by
    simp [colorEFChild, hleafT]
  simp only [followColor]
  rw [← hc]
  exact h

theorem one_le_findMaxHeight (n : ProofNode) : 1 ≤ findMaxHeight n := by
  cases n with
  | mk l t e mvs hs s nm =>
    simp only [findMaxHeight]
    split <;> omega

theorem exists_tall_child (l : List ProofNode) (h : 2 ≤ findMaxHeightList l) :
    ∃ c ∈ l, 2 ≤ findMaxHeight c := by
  induction l with
  | nil => simp [findMaxHeightList] at h
  | cons x xs ih =>
    simp only [findMaxHeightList] at h
    rcases le_max_iff.1 h with h1 | h2
    · exact ⟨x, by simp, h1⟩
    · obtain ⟨c, hc, h3⟩ := ih h2
      exact ⟨c, by simp [hc], h3⟩

theorem nonleaf_of_two_le_height (n : ProofNode) (h : 2 ≤ findMaxHeight n) :
    (n.mand_vars.isEmpty && n.hps.isEmpty) = false := by
  cases n with
  | mk l t e mvs hs s nm =>
    simp only [ProofNode.mand_vars, ProofNode.hps]
    by_contra hcon
    have htrue : (mvs.isEmpty && hs.isEmpty) = true := by
      revert hcon; cases (mvs.isEmpty && hs.isEmpty) <;> simp
    simp [findMaxHeight, htrue] at h

theorem one_le_inertIn_of_nonleaf (c : ProofNode)
    (h : (c.mand_vars.isEmpty && c.hps.isEmpty) = false) : 1 ≤ inertIn c := by
  cases c with
  | mk l t e mvs hs s nm =>
    simp only [ProofNode.mand_vars, ProofNode.hps] at h
    simp [inertIn, h]

theorem inertIn_le_inertInList (c : ProofNode) (l : List ProofNode) (h : c ∈ l) :
    inertIn c ≤ inertInList l := by
  induction l with
  | nil => simp at h
  | cons x xs ih =>
    simp only [inertInList]
    rcases List.mem_cons.1 h with rfl | h2
    · omega
    · have := ih h2; omega

theorem two_le_inertIn_of_height (T : ProofNode) (h : 2 < findMaxHeight T) :
    2 ≤ inertIn T := by
  cases T with
  | mk l t e mvs hs s nm =>
    have hleaf : (mvs.isEmpty && hs.isEmpty) = false := by
      have := nonleaf_of_two_le_height (ProofNode.mk l t e mvs hs s nm) (by omega)
      simpa [ProofNode.mand_vars, ProofNode.hps] using this
    have hh : 2 ≤ max (findMaxHeightList mvs) (findMaxHeightList hs) := by
      simp [findMaxHeight, hleaf] at h
      omega
    have hkey : 1 ≤ inertInList mvs ∨ 1 ≤ inertInList hs := by
      rcases le_max_iff.1 hh with h1 | h1
      · obtain ⟨c, hc, h2⟩ := exists_tall_child _ h1
        exact Or.inl (le_trans
          (one_le_inertIn_of_nonleaf c (nonleaf_of_two_le_height c h2))
          (inertIn_le_inertInList c mvs hc))
      · obtain ⟨c, hc, h2⟩ := exists_tall_child _ h1
        exact Or.inr (le_trans
          (one_le_inertIn_of_nonleaf c (nonleaf_of_two_le_height c h2))
          (inertIn_le_inertInList c hs hc))
    simp only [inertIn, hleaf]
    simp
    omega

theorem matchChildren_ok_true (lbls : String → Option (Kind × LabelData)) (c : Int) :
    ∀ (ms os : List ProofNode), matchChildren lbls c os ms = .ok true →
      ∀ p ∈ os.zip ms, ∃ y, matchNode lbls c p.1 p.2 = .ok (some y) := by
  intro ms
  induction ms with
  | nil =>
    intro os h p hp
    simp [List.zip_nil_right] at hp
  | cons m ms ih =>
    intro os h p hp
    cases os with
    | nil => simp [matchChildren] at h
    | cons o os =>
      simp only [matchChildren] at h
      cases hmn : matchNode lbls c o m with
      | error u => rw [hmn] at h; simp at h
      | ok x =>
        cases x with
        | none => rw [hmn] at h; simp at h
        | some y =>
          rw [hmn] at h
          dsimp only at h
          rw [List.zip_cons_cons] at hp
          rcases List.mem_cons.1 hp with rfl | hp2
          · exact ⟨y, hmn⟩
          · exact ih os h p hp2

theorem matchNode_matchRel (lbls : String → Option (Kind × LabelData)) :
    ∀ (m : ProofNode) (counter : Int) (orig x : ProofNode),
      matchNode lbls counter orig m = .ok (some x) → MatchRel lbls orig m := by
  intro m
  induction m using ProofNode.inductionOn with
  | _ ml mt me mmvs mhs msub mnm ih1 ih2 =>
    intro counter orig x h
    obtain ⟨ol, ot, oe, omvs, ohs, osub, onm⟩ := orig
    simp only [matchNode] at h
    cases hl : lbls ml with
    | none => rw [hl] at h; simp at h
    | some kd =>
      obtain ⟨k, d⟩ := kd
      rw [hl] at h
      cases k with
      | e =>
        dsimp only at h
        by_cases h1 : mmvs.isEmpty = true
        · rw [if_neg (not_not_intro h1)] at h
          by_cases h2 : mhs.isEmpty = true
          · have e1 : mmvs = [] := List.isEmpty_iff.1 h1
            have e2 : mhs = [] := List.isEmpty_iff.1 h2
            subst e1; subst e2
            exact MatchRel.hyp _ ml mt me msub mnm Kind.e d hl (Or.inl rfl)
          · rw [if_pos h2] at h; simp at h
        · rw [if_pos h1] at h; simp at h
      | f =>
        dsimp only at h
        by_cases h1 : mmvs.isEmpty = true
        · rw [if_neg (not_not_intro h1)] at h
          by_cases h2 : mhs.isEmpty = true
          · have e1 : mmvs = [] := List.isEmpty_iff.1 h1
            have e2 : mhs = [] := List.isEmpty_iff.1 h2
            subst e1; subst e2
            exact MatchRel.hyp _ ml mt me msub mnm Kind.f d hl (Or.inr rfl)
          · rw [if_pos h2] at h; simp at h
        · rw [if_pos h1] at h; simp at h
      | a =>
        dsimp only [ProofNode.label, ProofNode.mand_vars, ProofNode.hps] at h
        by_cases hlbl : ol = ml
        · rw [if_neg (not_not_intro hlbl)] at h
          by_cases hL1 : mmvs.length = omvs.length
          · rw [if_neg (not_not_intro hL1)] at h
            by_cases hL2 : mhs.length = ohs.length
            · rw [if_neg (not_not_intro hL2)] at h
              cases hmc1 : matchChildren lbls (counter - 1) omvs mmvs with
              | error u => rw [hmc1] at h; simp at h
              | ok b1 =>
                cases b1 with
                | false => rw [hmc1] at h; simp at h
                | true =>
                  rw [hmc1] at h
                  dsimp only at h
                  cases hmc2 : matchChildren lbls (counter - 1) ohs mhs with
                  | error u => rw [hmc2] at h; simp at h
                  | ok b2 =>
                    cases b2 with
                    | false => rw [hmc2] at h; simp at h
                    | true =>
                      subst hlbl
                      refine MatchRel.assert ol ot mt oe me omvs ohs mmvs mhs osub msub
                        onm mnm Kind.a d hl (Or.inl rfl) hL1.symm hL2.symm ?_ ?_
                      · intro p hp
                        obtain ⟨y, hy⟩ := matchChildren_ok_true lbls (counter - 1)
                          mmvs omvs hmc1 p hp
                        exact ih1 p.2 (List.of_mem_zip hp).2 (counter - 1) p.1 y hy
                      · intro p hp
                        obtain ⟨y, hy⟩ := matchChildren_ok_true lbls (counter - 1)
                          mhs ohs hmc2 p hp
                        exact ih2 p.2 (List.of_mem_zip hp).2 (counter - 1) p.1 y hy
            · rw [if_pos hL2] at h; simp at h
          · rw [if_pos hL1] at h; simp at h
        · rw [if_pos hlbl] at h; simp at h
      | p =>
        dsimp only [ProofNode.label, ProofNode.mand_vars, ProofNode.hps] at h
        by_cases hlbl : ol = ml
        · rw [if_neg (not_not_intro hlbl)] at h
          by_cases hL1 : mmvs.length = omvs.length
          · rw [if_neg (not_not_intro hL1)] at h
            by_cases hL2 : mhs.length = ohs.length
            · rw [if_neg (not_not_intro hL2)] at h
              cases hmc1 : matchChildren lbls (counter - 1) omvs mmvs with
              | error u => rw [hmc1] at h; simp at h
              | ok b1 =>
                cases b1 with
                | false => rw [hmc1] at h; simp at h
                | true =>
                  rw [hmc1] at h
                  dsimp only at h
                  cases hmc2 : matchChildren lbls (counter - 1) ohs mhs with
                  | error u => rw [hmc2] at h; simp at h
                  | ok b2 =>
                    cases b2 with
                    | false => rw [hmc2] at h; simp at h
                    | true =>
                      subst hlbl
                      refine MatchRel.assert ol ot mt oe me omvs ohs mmvs mhs osub msub
                        onm mnm Kind.p d hl (Or.inr rfl) hL1.symm hL2.symm ?_ ?_
                      · intro p hp
                        obtain ⟨y, hy⟩ := matchChildren_ok_true lbls (counter - 1)
                          mmvs omvs hmc1 p hp
                        exact ih1 p.2 (List.of_mem_zip hp).2 (counter - 1) p.1 y hy
                      · intro p hp
                        obtain ⟨y, hy⟩ := matchChildren_ok_true lbls (counter - 1)
                          mhs ohs hmc2 p hp
                        exact ih2 p.2 (List.of_mem_zip hp).2 (counter - 1) p.1 y hy
            · rw [if_pos hL2] at h; simp at h
          · rw [if_pos hL1] at h; simp at h
        · rw [if_pos hlbl] at h; simp at h

theorem sum_range_getD (cl : List ProofNode) :
    ∑ i ∈ Finset.range cl.length, (summarize (cl.getD i default)).length = sumLen cl := by
  induction cl with
  | nil => simp [sumLen]
  | cons x xs ih =>
    rw [List.length_cons, Finset.sum_range_succ']
    simp only [List.getD_cons_succ, List.getD_cons_zero]
    rw [ih, sumLen_cons]
    omega

theorem sel_le (idxs : List Nat) (cl : List ProofNode) (hnd : idxs.Nodup)
    (hb : ∀ i ∈ idxs, i < cl.length) :
    (idxs.map fun i => (summarize (cl.getD i default)).length).sum ≤ sumLen cl := by
  rw [← List.sum_toFinset _ hnd]
  have hsub : idxs.toFinset ⊆ Finset.range cl.length := by
    intro i hi
    rw [Finset.mem_range]
    exact hb i (List.mem_toFinset.1 hi)
  calc idxs.toFinset.sum (fun i => (summarize (cl.getD i default)).length)
      ≤ (Finset.range cl.length).sum (fun i => (summarize (cl.getD i default)).length) :=
        Finset.sum_le_sum_of_subset hsub
    _ = sumLen cl := sum_range_getD cl

theorem getD_set_self (l : List (List Nat)) (i : Nat) (a : List Nat) (hi : i < l.length) :
    (l.set i a).getD i [] = a := by
  rw [List.getD_eq_getElem?_getD, List.getElem?_set]
  simp [hi]

theorem getD_set_ne (l : List (List Nat)) (i j : Nat) (a : List Nat) (hij : i ≠ j) :
    (l.set i a).getD j [] = l.getD j [] := by
  rw [List.getD_eq_getElem?_getD, List.getElem?_set, if_neg hij, ← List.getD_eq_getElem?_getD]

theorem mkBuckets_foldl_length (mmv : List (String × String)) :
    ∀ (pairs : List (ProofNode × Nat)) (bks : List (List Nat)),
      (pairs.foldl (fun bks lv =>
        match lv.1.expr with
        | [k2, v2] =>
          match mmv.findIdx? (· == (k2, v2)) with
          | some j => bks.set j (bks.getD j [] ++ [lv.2])
          | none => bks
        | _ => bks) bks).length = bks.length := by
  intro pairs
  induction pairs with
  | nil => intro bks; simp
  | cons p ps ih =>
    intro bks
    rw [List.foldl_cons]
    rcases hex : p.1.expr with _ | ⟨k2, _ | ⟨v2, _ | ⟨w, tl⟩⟩⟩ <;> simp only [hex]
    · rw [ih]
    · rw [ih]
    · cases hidx : mmv.findIdx? (· == (k2, v2)) with
      | none => simp only [hidx]; rw [ih]
      | some j => simp only [hidx]; rw [ih, List.length_set]
    · rw [ih]

theorem bucketContrib_cons (mmv : List (String × String)) (j : Nat)
    (p : ProofNode × Nat) (ps : List (ProofNode × Nat)) :
    bucketContrib mmv j (p :: ps) =
      (match p.1.expr with
       | [k2, v2] =>
         match mmv.findIdx? (· == (k2, v2)) with
         | some j2 => if j2 = j then some p.2 else none
         | none => none
       | _ => none).toList ++ bucketContrib mmv j ps := by
  rw [bucketContrib, bucketContrib, List.filterMap_cons]
  rcases hex : p.1.expr with _ | ⟨k2, _ | ⟨v2, _ | ⟨w, tl⟩⟩⟩ <;> simp only [hex]
  · rfl
  · rfl
  · cases hidx : mmv.findIdx? (· == (k2, v2)) with
    | none => simp [hidx]
    | some j2 =>
      simp only [hidx]
      by_cases hj : j2 = j
      · simp [hj]
      · simp [hj]
  · rfl

theorem mkBuckets_foldl_getD (mmv : List (String × String)) :
    ∀ (pairs : List (ProofNode × Nat)) (bks : List (List Nat)) (j : Nat), j < bks.length →
      (pairs.foldl (fun bks lv =>
        match lv.1.expr with
        | [k2, v2] =>
          match mmv.findIdx? (· == (k2, v2)) with
          | some j => bks.set j (bks.getD j [] ++ [lv.2])
          | none => bks
        | _ => bks) bks).getD j []
      = bks.getD j [] ++ bucketContrib mmv j pairs := by
  intro pairs
  induction pairs with
  | nil => intro bks j hj; simp [bucketContrib]
  | cons p ps ih =>
    intro bks j hj
    rw [List.foldl_cons, bucketContrib_cons]
    rcases hex : p.1.expr with _ | ⟨k2, _ | ⟨v2, _ | ⟨w, tl⟩⟩⟩ <;> simp only [hex]
    · rw [ih bks j hj]; simp
    · rw [ih bks j hj]; simp
    · cases hidx : mmv.findIdx? (· == (k2, v2)) with
      | none => simp only [hidx]; rw [ih bks j hj]; simp
      | some j2 =>
        simp only [hidx]
        by_cases hj2 : j2 = j
        · rw [hj2]
          rw [ih _ j (by rw [List.length_set]; exact hj)]
          rw [getD_set_self bks j _ hj]
          simp
        · rw [ih _ j (by rw [List.length_set]; exact hj)]
          rw [getD_set_ne bks j2 j _ hj2]
          simp [hj2]
    · rw [ih bks j hj]; simp

theorem mkBuckets_length (mmv : List (String × String))
    (pairs : List (ProofNode × Nat)) (num : Nat) :
    (mkBuckets mmv pairs num).length = num := by
  have h := mkBuckets_foldl_length mmv pairs (List.replicate num [])
  rw [List.length_replicate] at h
  exact h

theorem mkBuckets_getD (mmv : List (String × String))
    (pairs : List (ProofNode × Nat)) (num : Nat) (j : Nat) (hj : j < num) :
    (mkBuckets mmv pairs num).getD j [] = bucketContrib mmv j pairs := by
  have h := mkBuckets_foldl_getD mmv pairs (List.replicate num []) j (by simp [hj])
  rw [List.getD_eq_getElem?_getD (List.replicate num []), List.getElem?_replicate,
    if_pos hj, Option.getD_some, List.nil_append] at h
  exact h

theorem mem_bucketContrib (mmv : List (String × String)) (j : Nat)
    (pairs : List (ProofNode × Nat)) (i : Nat) (h : i ∈ bucketContrib mmv j pairs) :
    ∃ p ∈ pairs, p.2 = i ∧
      ∃ k2 v2, p.1.expr = [k2, v2] ∧ mmv.findIdx? (· == (k2, v2)) = some j := by
  rw [bucketContrib, List.mem_filterMap] at h
  obtain ⟨p, hp, hf⟩ := h
  refine ⟨p, hp, ?_⟩
  rcases hex : p.1.expr with _ | ⟨k2, _ | ⟨v2, _ | ⟨w, tl⟩⟩⟩ <;> rw [hex] at hf <;>
    try simp at hf
  cases hidx : mmv.findIdx? (· == (k2, v2)) with
  | none => rw [hidx] at hf; simp at hf
  | some j2 =>
    rw [hidx] at hf
    dsimp only at hf
    by_cases hj2 : j2 = j
    · subst hj2
      rw [if_pos rfl] at hf
      exact ⟨Option.some.inj hf, k2, v2, rfl, hidx⟩
    · rw [if_neg hj2] at hf; simp at hf

theorem snd_inj_of_nodup (ps : List (ProofNode × Nat))
    (h : (ps.map Prod.snd).Nodup) :
    ∀ p ∈ ps, ∀ q ∈ ps, p.2 = q.2 → p = q := by
  induction ps with
  | nil => simp
  | cons a l ih =>
    simp only [List.map_cons, List.nodup_cons] at h
    intro p hp q hq heq
    rcases List.mem_cons.1 hp with rfl | hp2 <;> rcases List.mem_cons.1 hq with rfl | hq2
    · rfl
    · exact absurd (heq ▸ List.mem_map_of_mem Prod.snd hq2) h.1
    · exact absurd (heq ▸ List.mem_map_of_mem Prod.snd hp2) h.1
    · exact ih h.2 p hp2 q hq2 heq

theorem zip_map_snd_sublist : ∀ (l1 : List ProofNode) (l2 : List Nat),
    ((l1.zip l2).map Prod.snd).Sublist l2 := by
  intro l1
  induction l1 with
  | nil => intro l2; simp
  | cons a l ih =>
    intro l2
    cases l2 with
    | nil => simp
    | cons b bs =>
      rw [List.zip_cons_cons, List.map_cons]
      exact (ih bs).cons₂ b

theorem map_eq_map_range_getD (f : List Nat → Nat) : ∀ (l : List (List Nat)),
    l.map f = (List.range l.length).map fun j => f (l.getD j []) := by
  intro l
  induction l with
  | nil => simp
  | cons x xs ih =>
    rw [List.length_cons, List.range_succ_eq_map, List.map_cons, List.map_cons, List.map_map]
    congr 1

theorem headD_mem_of_ne_nil (l : List Nat) (h : l ≠ []) : l.headD 0 ∈ l := by
  cases l with
  | nil => exact absurd rfl h
  | cons a l => simp [List.headD]

theorem enum_filter_fst_nodup (l : List ProofNode) (p : ProofNode → Bool) :
    ((l.enum.filter fun iv => p iv.2).map Prod.fst).Nodup := by
  have hsub : ((l.enum.filter fun iv => p iv.2).map Prod.fst).Sublist
      (l.enum.map Prod.fst) :=
    List.Sublist.map _ (List.filter_sublist _)
  rw [List.enum_map_fst] at hsub
  exact hsub.nodup (List.nodup_range _)

theorem mem_enum_filter_fst_lt (l : List ProofNode) (p : ProofNode → Bool) (i : Nat)
    (h : i ∈ (l.enum.filter fun iv => p iv.2).map Prod.fst) : i < l.length := by
  have hsub : ((l.enum.filter fun iv => p iv.2).map Prod.fst).Sublist
      (l.enum.map Prod.fst) :=
    List.Sublist.map _ (List.filter_sublist _)
  rw [List.enum_map_fst] at hsub
  exact List.mem_range.1 (hsub.subset h)

theorem mem_enum_filter_fst_prop (l : List ProofNode) (p : ProofNode → Bool) (i : Nat)
    (h : i ∈ (l.enum.filter fun iv => p iv.2).map Prod.fst) :
    ∃ v, (i, v) ∈ l.enum ∧ p v = true := by
  obtain ⟨iv, hiv, hfst⟩ := List.mem_map.1 h
  rw [List.mem_filter] at hiv
  exact ⟨iv.2, by rw [← hfst]; exact hiv.1, hiv.2⟩

theorem enum_functional (l : List ProofNode) (i : Nat) (a b : ProofNode)
    (ha : (i, a) ∈ l.enum) (hb : (i, b) ∈ l.enum) : a = b := by
  rw [List.mem_enum_iff_getElem?] at ha hb
  simp only at ha hb
  rw [ha] at hb
  exact Option.some.inj hb

theorem getD_mem_of_lt (l : List (List Nat)) (j : Nat) (hj : j < l.length) :
    l.getD j [] ∈ l := by
  rw [List.getD_eq_getElem?_getD, List.getElem?_eq_getElem hj]
  simp

theorem sumLen_map_setSubstFalse (l : List ProofNode) :
    sumLen (l.map setSubstFalse) = sumLen l := by
  rw [sumLen, sumLen, List.map_map]
  congr 1
  apply List.map_congr_left
  intro c _
  simp [Function.comp, summarize_setSubstFalse]

theorem selection_bound (cl leaves lmv : List ProofNode) (afh : List (String × String))
    (hlen : cl.length = leaves.length)
    (hall : ∀ b ∈ mkBuckets afh (lmv.zip
        ((leaves.enum.filter fun iv => iv.2.typ == Kind.f).map Prod.fst)) afh.length,
        ((b.map fun i => (cl.getD i default).expr).dedup).length = 1) :
    (((mkBuckets afh (lmv.zip
        ((leaves.enum.filter fun iv => iv.2.typ == Kind.f).map Prod.fst)) afh.length).map
        (fun b => b.headD 0)
      ++ (leaves.enum.filter fun iv => iv.2.typ == Kind.e).map Prod.fst).map
        (fun i => (summarize (cl.getD i default)).length)).sum ≤ sumLen cl := by
  set P := lmv.zip
    ((leaves.enum.filter fun iv => iv.2.typ == Kind.f).map Prod.fst) with hP
  set B := mkBuckets afh P afh.length with hB
  have hBlen : B.length = afh.length := mkBuckets_length afh P afh.length
  have hcontrib : ∀ j, j < afh.length → B.getD j [] = bucketContrib afh j P :=
    fun j hj => mkBuckets_getD afh P afh.length j hj
  have hsnd : (P.map Prod.snd).Nodup :=
    (zip_map_snd_sublist _ _).nodup
      (enum_filter_fst_nodup leaves (fun n => n.typ == Kind.f))
  have hsubm : ∀ i, i ∈ P.map Prod.snd →
      i ∈ (leaves.enum.filter fun iv => iv.2.typ == Kind.f).map Prod.fst :=
    fun i hi => (zip_map_snd_sublist _ _).subset hi
  have hdisjB : ∀ j j', j < afh.length → j' < afh.length → ∀ i,
      i ∈ bucketContrib afh j P → i ∈ bucketContrib afh j' P → j = j' := by
    intro j j' hj hj' i hij hij'
    obtain ⟨p, hp, hpi, k2, v2, hex, hidx⟩ := mem_bucketContrib _ _ _ _ hij
    obtain ⟨q, hq, hqi, k2', v2', hex', hidx'⟩ := mem_bucketContrib _ _ _ _ hij'
    have hpq : p = q := snd_inj_of_nodup P hsnd p hp q hq (by rw [hpi, hqi])
    subst hpq
    rw [hex] at hex'
    have hk : k2 = k2' := by injection hex'
    have hv : v2 = v2' := by
      have := hex'
      injection this with h1 h2
      injection h2
    subst hk; subst hv
    rw [hidx] at hidx'
    exact Option.some.inj hidx'
  have hBne : ∀ b ∈ B, b ≠ [] := by
    intro b hb hcon
    have := hall b hb
    rw [hcon] at this
    simp at this
  have hmemContrib : ∀ j, j < afh.length →
      (B.getD j []).headD 0 ∈ bucketContrib afh j P := by
    intro j hj
    rw [← hcontrib j hj]
    exact headD_mem_of_ne_nil _ (hBne _ (getD_mem_of_lt B j (by omega)))
  have hmand : B.map (fun b => b.headD 0)
      = (List.range B.length).map (fun j => (B.getD j []).headD 0) :=
    map_eq_map_range_getD (fun b => b.headD 0) B
  have hndm : (B.map (fun b => b.headD 0)).Nodup := by
    rw [hmand]
    apply List.Nodup.map_on _ (List.nodup_range _)
    intro j hj j' hj' heq
    rw [List.mem_range, hBlen] at hj hj'
    exact hdisjB j j' hj hj' _ (hmemContrib j hj) (heq ▸ hmemContrib j' hj')
  have hmb : ∀ i ∈ B.map (fun b => b.headD 0),
      i ∈ (leaves.enum.filter fun iv => iv.2.typ == Kind.f).map Prod.fst := by
    rw [hmand]
    intro i hi
    obtain ⟨j, hj, rfl⟩ := List.mem_map.1 hi
    rw [List.mem_range, hBlen] at hj
    obtain ⟨p, hp, hpi, _⟩ := mem_bucketContrib _ _ _ _ (hmemContrib j hj)
    exact hsubm _ (hpi ▸ List.mem_map_of_mem Prod.snd hp)
  have hndh : ((leaves.enum.filter fun iv => iv.2.typ == Kind.e).map Prod.fst).Nodup :=
    enum_filter_fst_nodup leaves (fun n => n.typ == Kind.e)
  have hdisj : List.Disjoint (B.map (fun b => b.headD 0))
      ((leaves.enum.filter fun iv => iv.2.typ == Kind.e).map Prod.fst) := by
    intro i him hih
    obtain ⟨v, hv, hvf⟩ := mem_enum_filter_fst_prop leaves (fun n => n.typ == Kind.f) i
      (hmb i him)
    obtain ⟨w, hw, hwe⟩ := mem_enum_filter_fst_prop leaves (fun n => n.typ == Kind.e) i hih
    have hvw : v = w := enum_functional leaves i v w hv hw
    subst hvw
    rw [beq_iff_eq] at hvf hwe
    rw [hvf] at hwe
    exact absurd hwe (by simp)
  have hnd : ((B.map (fun b => b.headD 0))
      ++ (leaves.enum.filter fun iv => iv.2.typ == Kind.e).map Prod.fst).Nodup :=
    hndm.append hndh hdisj
  have hbound : ∀ i ∈ (B.map (fun b => b.headD 0))
      ++ (leaves.enum.filter fun iv => iv.2.typ == Kind.e).map Prod.fst,
      i < cl.length := by
    intro i hi
    rw [hlen]
    rcases List.mem_append.1 hi with h | h
    · exact mem_enum_filter_fst_lt leaves (fun n => n.typ == Kind.f) i (hmb i h)
    · exact mem_enum_filter_fst_lt leaves (fun n => n.typ == Kind.e) i h
  exact sel_le _ cl hnd hbound

theorem ite_none_eq_some {α : Type} {c : Prop} [inst : Decidable c] {o : Option α} {v : α} :
    ((if c then none else o) = some v) ↔ (¬c ∧ o = some v) := by
  by_cases h : c <;> simp [h]

theorem summarize_mk (nm : String) (tt : Kind) (ex : List String)
    (la lb : List ProofNode) (sb : Bool) (nn : String) :
    summarize (ProofNode.mk nm tt ex la lb sb nn)
      = summarizeList la ++ summarizeList lb ++ [nm] := by
  simp [summarize]

theorem flags_from_not_any (x : ProofNode)
    (h : ¬((getDfs x).any ProofNode.subst = true)) :
    ∀ n ∈ allNodes x, n.subst = false := by
  intro n hn
  cases hs : n.subst
  · rfl
  · exact absurd (List.any_eq_true.2 ⟨n, hn, hs⟩) h

/-- C8 (amended, the part that holds): whenever a node of the current proof
matches the new theorem's stored derivation (`match_theorem_current_node`
with counter 0, exactly as `refactor_all` calls it), the node kinds of the
derivation agree with the label table, the derivation's height exceeds 2
(the `refactor_all` filter), and `refactor_proof_single` produces a
rewritten node, then the summarized proof of the rewritten node is
strictly shorter than that of the matched subtree it replaces.  The
claimed successful re-verification is refuted by `c8_counterexample`. -/
theorem c8_refactor_strict_decrease (lbls : String → Option (Kind × LabelData))
    (orig T res r : ProofNode)
    (hmr : matchNode lbls 0 orig T = Except.ok (some r))
    (hcons : typsConsistent lbls T)
    (hh : 2 < findMaxHeight T)
    (href : refactor_proof_single orig T lbls = some res) :
    (summarize res).length < (summarize orig).length := by
  rw [refactor_proof_single] at href
  simp only [ite_none_eq_some] at href
  obtain ⟨hn1, hn2, hn3, hmatch⟩ := href
  have hfo : ∀ n ∈ allNodes orig, n.subst = false := flags_from_not_any orig hn1
  have hfT : ∀ n ∈ allNodes T, n.subst = false := flags_from_not_any T hn2
  have hm : MatchRel lbls orig T := matchNode_matchRel lbls T 0 orig r hmr
  have hleafT : (T.mand_vars.isEmpty && T.hps.isEmpty) = false :=
    nonleaf_of_two_le_height T (by omega)
  have hkey := keyRootEq lbls orig T hm hcons hfo hfT hleafT
  have h2i : 2 ≤ inertIn T := two_le_inertIn_of_height T hh
  have hlen : (List.filter ProofNode.subst (postOrder (followColor orig (colorEFLeaves T)))).length
      = (List.filter (fun n => n.typ == Kind.e || n.typ == Kind.f)
          (getLeaves (colorEFLeaves T))).length :=
    not_ne_iff.1 hn3
  split at hmatch
  next x k a heq =>
    simp only [ite_none_eq_some, Option.some.injEq] at hmatch
    obtain ⟨hnodup, hlen5, hbuck, hres⟩ := hmatch
    have hall : ∀ b ∈ mkBuckets a.f_hyps
        ((List.filter (fun n => n.typ == Kind.f)
            (List.filter (fun n => n.typ == Kind.e || n.typ == Kind.f)
              (getLeaves (colorEFLeaves T)))).zip
          ((List.filter (fun iv => iv.2.typ == Kind.f)
              (List.filter (fun n => n.typ == Kind.e || n.typ == Kind.f)
                (getLeaves (colorEFLeaves T))).enum).map Prod.fst))
        a.f_hyps.length,
        ((b.map fun i => ((List.filter ProofNode.subst
            (postOrder (followColor orig (colorEFLeaves T)))).getD i default).expr).dedup).length
          = 1 := by
      intro b hb
      exact of_decide_eq_true (List.all_eq_true.1 (not_not.1 hbuck) b hb)
    have hsel := selection_bound
      (List.filter ProofNode.subst (postOrder (followColor orig (colorEFLeaves T))))
      (List.filter (fun n => n.typ == Kind.e || n.typ == Kind.f) (getLeaves (colorEFLeaves T)))
      (List.filter (fun n => n.typ == Kind.f)
        (List.filter (fun n => n.typ == Kind.e || n.typ == Kind.f) (getLeaves (colorEFLeaves T))))
      a.f_hyps hlen hall
    rw [List.map_append, List.sum_append] at hsel
    have hL : (summarize res).length
        = (((mkBuckets a.f_hyps
              ((List.filter (fun n => n.typ == Kind.f)
                  (List.filter (fun n => n.typ == Kind.e || n.typ == Kind.f)
                    (getLeaves (colorEFLeaves T)))).zip
                ((List.filter (fun iv => iv.2.typ == Kind.f)
                    (List.filter (fun n => n.typ == Kind.e || n.typ == Kind.f)
                      (getLeaves (colorEFLeaves T))).enum).map Prod.fst))
              a.f_hyps.length).map (fun b => b.headD 0)).map
            (fun i => (summarize ((List.filter ProofNode.subst
              (postOrder (followColor orig (colorEFLeaves T)))).getD i default)).length)).sum
          + (((List.filter (fun iv => iv.2.typ == Kind.e)
                (List.filter (fun n => n.typ == Kind.e || n.typ == Kind.f)
                  (getLeaves (colorEFLeaves T))).enum).map Prod.fst).map
            (fun i => (summarize ((List.filter ProofNode.subst
              (postOrder (followColor orig (colorEFLeaves T)))).getD i default)).length)).sum
          + 1 := by
      rw [← hres]
      rw [summarize_mk, List.length_append, List.length_append, summarizeList_length,
        summarizeList_length, sumLen_map_setSubstFalse, sumLen_map_setSubstFalse]
      rw [sumLen, sumLen]
      simp only [List.map_map]
      rfl
    omega
  next => simp at hmatch

/-- C8, refuted part of the claim: at the grammar `envC8` (whose stored
theorem `thmT` carries the declared disjointness pair `(x, y)`) the whole
original proof `origC8` matches `thmT`'s stored derivation `tC8` (which
passes the height filter of `refactor_all`), and `refactor_proof_single`
rewrites it into the single step `resC8` invoking `thmT`; yet re-verifying
the rewritten proof with `mode='other'` (probe mode), as the inner loop of
`refactor_all` does, returns `(False, None)` — the probe disjointness check
rejects any substitution in which both expressions of a declared pair
contain variables — so `refactor_all` raises `NotImplementedError` instead
of producing the re-verified rewrite the claim promises. -/
theorem c8_counterexample :
    matchNode labelsC8 0 origC8 tC8 = Except.ok (some origC8) ∧
    2 < findMaxHeight tC8 ∧
    refactor_proof_single origC8 tC8 labelsC8 = some resC8 ∧
    verify_custom envC8 false (ProofNode.expr resC8) (summarize resC8) "" = VRes.failNone ∧
    refactorStep envC8 tC8 origC8 = Except.error () := by
  refine ⟨?_, ?_, ?_, ?_, ?_⟩
  · simp +decide [matchNode, matchChildren, additional_check, origC8, tC8, nTn, nTx, nTy, labelsC8,
    getDfs, allNodes, allNodesList, getLeaves, getLeavesList, colorEFLeaves, colorEFLeavesList,
    setSubstTrue, followColor, copySubst, copySubstZip, postOrder, postOrderList, mkBuckets,
    List.enum_cons, List.enumFrom_cons,
    ProofNode.label, ProofNode.typ, ProofNode.expr, ProofNode.mand_vars, ProofNode.hps,
    ProofNode.subst, ProofNode.name]
  · simp +decide [tC8, nTn, nTx, nTy, findMaxHeight, findMaxHeightList,
      ProofNode.mand_vars, ProofNode.hps]
  · simp +decide [refactor_proof_single, resC8, setSubstFalse, matchNode, matchChildren, additional_check, origC8, tC8, nTn, nTx, nTy, labelsC8,
    getDfs, allNodes, allNodesList, getLeaves, getLeavesList, colorEFLeaves, colorEFLeavesList,
    setSubstTrue, followColor, copySubst, copySubstZip, postOrder, postOrderList, mkBuckets,
    List.enum_cons, List.enumFrom_cons,
    ProofNode.label, ProofNode.typ, ProofNode.expr, ProofNode.mand_vars, ProofNode.hps,
    ProofNode.subst, ProofNode.name]
  · simp +decide [verify_custom, resC8, nTx, nTy, envC8, labelsC8, frameC8, summarize,
      summarizeList, decompressIfCompressed, decompress_proof, vSteps, vStep, vStepAssert,
      bindMand, checkHyps, checkDisjointV, checkDisjointP, checkPairsStrict, lookup_d,
      lookup_v, lookup_f, lookup_e, lookupFAux, lookupEAux, make_assertion, mandVarsOf,
      fHypStep, apply_subst, find_vars, substUpdate, emptySubst, Frame.empty,
      ProofNode.label, ProofNode.typ, ProofNode.expr, ProofNode.mand_vars, ProofNode.hps,
      ProofNode.subst, ProofNode.name, ProofNode.setName]
  · simp +decide [refactorStep, rewriteFirstMatch, rewriteFirstMatchList,
      refactor_proof_single, resC8, setSubstFalse, envC8, frameC8,
      verify_custom, summarize, summarizeList,
      decompressIfCompressed, decompress_proof, vSteps, vStep, vStepAssert, bindMand,
      checkHyps, checkDisjointV, checkDisjointP, checkPairsStrict, lookup_d, lookup_v,
      lookup_f, lookup_e, lookupFAux, lookupEAux, make_assertion, mandVarsOf, fHypStep,
      apply_subst, find_vars, substUpdate, emptySubst, Frame.empty, ProofNode.setName,
      matchNode, matchChildren, additional_check, origC8, tC8, nTn, nTx, nTy, labelsC8,
    getDfs, allNodes, allNodesList, getLeaves, getLeavesList, colorEFLeaves, colorEFLeavesList,
    setSubstTrue, followColor, copySubst, copySubstZip, postOrder, postOrderList, mkBuckets,
    List.enum_cons, List.enumFrom_cons,
    ProofNode.label, ProofNode.typ, ProofNode.expr, ProofNode.mand_vars, ProofNode.hps,
    ProofNode.subst, ProofNode.name]

/-- Witness for C8 at the `envC8` instance: the matched original subtree
summarizes to a proof of length 4, the rewritten single step to one of
length 3. -/
theorem c8_witness :
    (summarize resC8).length < (summarize origC8).length :=
  c8_refactor_strict_decrease labelsC8 origC8 tC8 resC8 origC8
    (by simp +decide [matchNode, matchChildren, additional_check, origC8, tC8, nTn, nTx, nTy, labelsC8,
    getDfs, allNodes, allNodesList, getLeaves, getLeavesList, colorEFLeaves, colorEFLeavesList,
    setSubstTrue, followColor, copySubst, copySubstZip, postOrder, postOrderList, mkBuckets,
    List.enum_cons, List.enumFrom_cons,
    ProofNode.label, ProofNode.typ, ProofNode.expr, ProofNode.mand_vars, ProofNode.hps,
    ProofNode.subst, ProofNode.name])
    (by
      intro n hn
      simp [tC8, nTn, nTx, nTy, allNodes, allNodesList] at hn
      rcases hn with rfl | rfl | rfl | rfl <;> exact ⟨_, rfl⟩)
    (by simp +decide [tC8, nTn, nTx, nTy, findMaxHeight, findMaxHeightList,
      ProofNode.mand_vars, ProofNode.hps])
    (by simp +decide [refactor_proof_single, resC8, setSubstFalse, matchNode, matchChildren, additional_check, origC8, tC8, nTn, nTx, nTy, labelsC8,
    getDfs, allNodes, allNodesList, getLeaves, getLeavesList, colorEFLeaves, colorEFLeavesList,
    setSubstTrue, followColor, copySubst, copySubstZip, postOrder, postOrderList, mkBuckets,
    List.enum_cons, List.enumFrom_cons,
    ProofNode.label, ProofNode.typ, ProofNode.expr, ProofNode.mand_vars, ProofNode.hps,
    ProofNode.subst, ProofNode.name])

end MMV
